import Mathlib

/-!
Shallow embedding of the GoRE go-binary analysis library (files `file.go`,
the package classifier file and the PE container-reader file), together with
proofs about the embedded operations.

Strings are embedded as `List Char` so that every string operation used by the
source (prefix test, substring test, split, path cleaning) is executable and
decidable.  Machine integers are embedded as `Nat` with explicit reductions
modulo `2 ^ 32` / `2 ^ 64` exactly where the Go source performs `uint32` /
`uint64` arithmetic.
-/

namespace Gore

/-- Strings of the embedded program, as lists of characters. -/
abbrev Str := List Char

/-- Embeds Go `strings.HasPrefix(s, pre)`. -/
def strHasPre (s pre : Str) : Bool :=
  pre.isPrefixOf s

/-- Embeds Go `strings.Contains(s, sub)`. -/
def strContains (s sub : Str) : Bool :=
  s.tails.any (fun t => sub.isPrefixOf t)

/-- The part of `s` before the first occurrence of the separator `sep`, i.e.
Go `strings.Split(s, sep)[0]` for a non-empty separator (the only way the
source uses `strings.Split`). -/
def strBefore (s sep : Str) : Str :=
  match s with
  | [] => []
  | c :: cs => if strHasPre (c :: cs) sep then [] else c :: strBefore cs sep

/-- Result of a Go computation: a normal value, a returned error, or a
run-time panic. -/
inductive GoResult (α : Type) where
  | ok (a : α)
  | err (e : Str)
  | panicked (msg : Str)
  deriving DecidableEq, Repr

end Gore

namespace Gore

/-! ### Go standard library `path` functions

The classifier and the package assembler call `path.Dir`, `path.Clean` and
`path.Base` from Go's standard `path` package.  They are embedded here
following the documented semantics of `path.Clean` (repeatedly: collapse
multiple slashes, drop `.` elements, cancel `..` against a preceding element,
drop `..` elements at the root), realised by the standard stack algorithm over
slash-separated components. -/

/-- Split a path into its slash-separated components (separators dropped). -/
def splitComps (p : Str) : List Str :=
  match p with
  | [] => [[]]
  | c :: cs =>
    match splitComps cs with
    | [] => [[]]
    | h :: t => if c = '/' then [] :: h :: t else (c :: h) :: t

/-- One step of the `path.Clean` stack algorithm; the stack is kept reversed
(most recent component first). -/
def cleanStep (rooted : Bool) (st : List Str) (c : Str) : List Str :=
  if c = ['.', '.'] then
    match st with
    | top :: rest => if top = ['.', '.'] then c :: top :: rest else rest
    | [] => if rooted then [] else [c]
  else c :: st

/-- Embeds Go `path.Clean`. -/
def pathClean (p : Str) : Str :=
  if p = [] then ['.']
  else
    let rooted := p.head? = some '/'
    let comps := (splitComps p).filter (fun c => c ≠ [] ∧ c ≠ ['.'])
    let stack := (comps.foldl (cleanStep rooted) []).reverse
    let joined := (List.intersperse ['/'] stack).flatten
    let res := if rooted then '/' :: joined else joined
    if res = [] then ['.'] else res

/-- The body of `pathClean` on a non-empty path, named so the idempotence
proof below can manipulate it. -/
def pathCleanCore (p : Str) : Str :=
  let acc := ((splitComps p).filter (fun c => c ≠ [] ∧ c ≠ ['.'])).foldl
    (cleanStep (p.head? = some '/')) []
  let joined := (List.intersperse ['/'] acc.reverse).flatten
  let res := if p.head? = some '/' then '/' :: joined else joined
  if res = [] then ['.'] else res

/-- Embeds Go `path.Dir`: everything up to and including the final slash,
then `Clean`ed (`.` when there is no slash). -/
def pathDir (p : Str) : Str :=
  pathClean ((p.reverse.dropWhile (fun c => c ≠ '/')).reverse)

/-- Embeds Go `path.Base`: the last element of the path after trailing
slashes are removed (`.` for the empty path, `/` when the path is all
slashes). -/
def pathBase (p : Str) : Str :=
  if p = [] then ['.']
  else
    let q := p.reverse.dropWhile (fun c => c = '/')
    if q = [] then ['/'] else (q.takeWhile (fun c => c ≠ '/')).reverse

/-! ### Error values

The library's sentinel errors (`ErrSectionDoesNotExist`, `ErrNoPCLNTab`, ...)
are declared in a file outside the three embedded ones; here each is embedded
as its distinguishable message string. -/

def errSectionDoesNotExist : Str := "section does not exist".data

def errNoPCLNTab : Str := "no pclntab located".data

def errNotEnoughBytesRead : Str := "not enough bytes read".data

def errUnsupportedFile : Str := "unsupported file".data

def errSymbolNotFound : Str := "symbol not found".data

/-- The inline error created by `GoFile.Bytes`. -/
def errLengthOutOfBounds : Str := "length out of bounds".data

/-- The inline error created by `peFile.initSymTab`. -/
def errInvalidSectionNumber : Str := "invalid section number in symbol table".data

/-- The inline error created by `enumPackages`. -/
def errNoMainPackage : Str := "no main package found".data

/-- The error `os.File.Read` returns at end of file. -/
def errEOF : Str := "EOF".data

/-! ### PE container reader -/

/-- A section of a parsed PE file (`debug/pe.Section`), together with the
outcome of `Section.Data()`: `debug/pe` reads exactly `Size` bytes from file
offset `Offset`, returning the bytes read and an error when the read falls
short.  `virtualAddress` and `size` are `uint32` fields. -/
structure PESection where
  name : Str
  virtualAddress : Nat
  size : Nat
  offset : Nat
  data : List Nat
  dataErr : Option Str
  deriving DecidableEq, Repr

/-- The containment test of `peFile.getSectionDataFromAddress`: the section is
backed by the file (`Offset ≠ 0`) and
`imageBase + VirtualAddress ≤ address < imageBase + (VirtualAddress + Size)`,
where `VirtualAddress + Size` is computed in `uint32` and the outer sums in
`uint64`, exactly as in the source. -/
def secContains (imageBase : Nat) (s : PESection) (address : Nat) : Prop :=
  s.offset ≠ 0 ∧ (imageBase + s.virtualAddress) % 2 ^ 64 ≤ address ∧
    address < (imageBase + (s.virtualAddress + s.size) % 2 ^ 32) % 2 ^ 64

instance (ib : Nat) (s : PESection) (a : Nat) : Decidable (secContains ib s a) := by
  unfold secContains; infer_instance

/-- Embeds `peFile.getSectionDataFromAddress`: scan the sections in order and
return the first that contains the address, as `(base address, data)`.  The Go
function returns the triple `(base, data, err)` with `err` from
`Section.Data()`; its only caller propagates a non-nil `err` and discards the
data, which the embedding expresses by collapsing that case to `.err`. -/
def getSectionDataFromAddress (imageBase : Nat) (sections : List PESection)
    (address : Nat) : GoResult (Nat × List Nat) :=
  match sections with
  | [] => .err errSectionDoesNotExist
  | s :: rest =>
    if secContains imageBase s address then
      match s.dataErr with
      | some e => .err e
      | none => .ok ((imageBase + s.virtualAddress) % 2 ^ 64, s.data)
    else getSectionDataFromAddress imageBase rest address

/-- `uint64` reduction. -/
def u64 (n : Nat) : Nat := n % 2 ^ 64

/-- Embeds `GoFile.Bytes` (over the PE back end): resolve the address to a
section, reject when `address+length-base` (in `uint64` arithmetic) exceeds
the section data length, and otherwise return the slice
`section[address-base : address+length-base]`.  A Go slice expression with
`low > high` panics at run time; the embedding surfaces that as `.panicked`. -/
def goFileBytes (imageBase : Nat) (sections : List PESection)
    (address length : Nat) : GoResult (List Nat) :=
  match getSectionDataFromAddress imageBase sections address with
  | .err e => .err e
  | .panicked m => .panicked m
  | .ok (base, data) =>
    let hi := u64 (u64 (address + length) + 2 ^ 64 - base)
    if hi > data.length then .err errLengthOutOfBounds
    else
      let lo := u64 (address + 2 ^ 64 - base)
      if lo ≤ hi then .ok ((data.take hi).drop lo)
      else .panicked "slice bounds out of range".data

/-! ### PCLNTAB pattern search -/

/-- The four known PCLNTAB magic values in little-endian byte order (PE files
are always little-endian): `0xFFFFFFFB` (Go 1.2), `0xFFFFFFFA` (1.16),
`0xFFFFFFF0` (1.18) and `0xFFFFFFF1` (1.20). -/
def pclntabMagicBytes : List (List Nat) :=
  [[0xfb, 0xff, 0xff, 0xff], [0xfa, 0xff, 0xff, 0xff],
   [0xf0, 0xff, 0xff, 0xff], [0xf1, 0xff, 0xff, 0xff]]

/-- Modelled from the spec: the PCLNTAB header validity test used by the
scanner `searchSectionForTab`, whose source file is not part of the embedded
set.  The header begins with a known 4-byte magic followed by two zero bytes,
then a quantum byte and a pointer-size byte, each a power of two at most 8. -/
def validTabHeader (d : List Nat) : Bool :=
  match d with
  | m0 :: m1 :: m2 :: m3 :: z0 :: z1 :: q :: ps :: _ =>
    pclntabMagicBytes.contains [m0, m1, m2, m3] && z0 == 0 && z1 == 0 &&
      [1, 2, 4, 8].contains q && [1, 2, 4, 8].contains ps
  | _ => false

/-- The least offset of a valid PCLNTAB header inside the section data. -/
def firstTabOffset (d : List Nat) : Option Nat :=
  (List.range d.length).find? (fun o => validTabHeader (d.drop o))

/-- Modelled from the spec: `searchSectionForTab`, whose source file is not
part of the embedded set.  It scans the section data for a valid PCLNTAB
header and returns the tail of the data trimmed to begin at the magic of the
first match, or the no-PCLNTAB error when no offset carries a valid header. -/
def searchSectionForTab (d : List Nat) : GoResult (List Nat) :=
  match firstTabOffset d with
  | some o => .ok (d.drop o)
  | none => .err errNoPCLNTab

/-- Embeds `pe.File.Section(name)`: the first section with the given name. -/
def peSectionByName (sections : List PESection) (name : Str) : Option PESection :=
  sections.find? (fun s => s.name == name)

/-- The loop body of `peFile.searchForPCLNTab`, iterating over the section
names `.rdata` then `.text`: a missing section is skipped; a `Section.Data()`
error is returned immediately; a scanner failure moves on to the next
section; a scanner hit returns
`(sec.VirtualAddress + uint32(len(secData)-len(tab)), tab)` (the address sum
is `uint32` arithmetic). -/
def searchForPCLNTabLoop (sections : List PESection) : List Str → GoResult (Nat × List Nat)
  | [] => .err errNoPCLNTab
  | n :: rest =>
    match peSectionByName sections n with
    | none => searchForPCLNTabLoop sections rest
    | some sec =>
      match sec.dataErr with
      | some e => .err e
      | none =>
        match searchSectionForTab sec.data with
        | .ok tab => .ok ((sec.virtualAddress + (sec.data.length - tab.length)) % 2 ^ 32, tab)
        | _ => searchForPCLNTabLoop sections rest

/-- Embeds `peFile.searchForPCLNTab`. -/
def searchForPCLNTab (sections : List PESection) : GoResult (Nat × List Nat) :=
  searchForPCLNTabLoop sections [".rdata".data, ".text".data]

/-- Embeds `peFile.getPCLNTABDataImpl`: bias the found `uint32` start address
by the image base in `uint64` arithmetic. -/
def getPCLNTABDataImpl (imageBase : Nat) (sections : List PESection) :
    GoResult (Nat × List Nat) :=
  match searchForPCLNTab sections with
  | .ok (start, d) => .ok (u64 (imageBase + start), d)
  | .err e => .err e
  | .panicked m => .panicked m

/-! ### PE symbol-table normalization -/

/-- A COFF symbol as exposed by `debug/pe` (`Value` is `uint32`,
`SectionNumber` is `int16`). -/
structure PESymbol where
  name : Str
  value : Nat
  sectionNumber : Int
  deriving DecidableEq, Repr

/-- The `symbol` record built by `peFile.initSymTab`. -/
structure GoSymbol where
  name : Str
  value : Nat
  size : Nat
  deriving DecidableEq, Repr

/-- A placeholder section for the (unreachable) out-of-range index access. -/
def dummySection : PESection := ⟨[], 0, 0, 0, [], none⟩

/-- The first loop of `peFile.initSymTab`: build the biased symbol list.
Section numbers `0` (undef), `-1` (absolute) and `-2` (debug) pass the value
through unbiased; any other number outside `1..len(sections)` makes the whole
normalization fail with the invalid-section-number error; otherwise the value
is biased by `imageBase + section.VirtualAddress` in `uint64` arithmetic. -/
def collectSyms (imageBase : Nat) (sections : List PESection) :
    List PESymbol → Except Str (List GoSymbol)
  | [] => .ok []
  | s :: rest =>
    if s.sectionNumber = 0 ∨ s.sectionNumber = -1 ∨ s.sectionNumber = -2 then
      (collectSyms imageBase sections rest).map (⟨s.name, s.value, 0⟩ :: ·)
    else if s.sectionNumber < 0 ∨ (sections.length : Int) < s.sectionNumber then
      .error errInvalidSectionNumber
    else
      let sect := sections.getD (s.sectionNumber.toNat - 1) dummySection
      let v := u64 (s.value + (imageBase + sect.virtualAddress))
      (collectSyms imageBase sections rest).map (⟨s.name, v, 0⟩ :: ·)

/-- Insertion of one element into a Bool-ordered list. -/
def insertLe {α : Type} (le : α → α → Bool) (x : α) : List α → List α
  | [] => [x]
  | y :: ys => if le x y then x :: y :: ys else y :: insertLe le x ys

/-- Insertion sort by a Bool order, embedding Go's `slices.Sort` (the sorted
values are only consulted through an order-insensitive search, so any correct
sort is an exact model). -/
def sortLe {α : Type} (le : α → α → Bool) (l : List α) : List α :=
  l.foldr (insertLe le) []

/-- The sizing pass of `peFile.initSymTab`: sort all symbol values ascending;
each symbol's size is the distance to the least strictly larger value
(`sort.Search` on a sorted array), and stays `0` for the largest. -/
def sizeSyms (syms : List GoSymbol) : List GoSymbol :=
  let sorted := sortLe (fun a b => a ≤ b) (syms.map (·.value))
  syms.map (fun sy =>
    match sorted.find? (fun a => sy.value < a) with
    | some a => { sy with size := a - sy.value }
    | none => sy)

/-- Update-or-append into an association list keyed by strings; embeds one Go
map assignment `m[k] = v`. -/
def aUpsert {β : Type} (st : List (Str × β)) (k : Str) (v : β) : List (Str × β) :=
  if st.any (fun kv => kv.1 == k) then
    st.map (fun kv => if kv.1 == k then (kv.1, v) else kv)
  else st ++ [(k, v)]

/-- Lookup in an association list keyed by strings; embeds a Go map read. -/
def aLookup {β : Type} (st : List (Str × β)) (k : Str) : Option β :=
  (st.find? (fun kv => kv.1 == k)).map (·.2)

/-- The body of the one-shot gate in `peFile.initSymTab`: collect the biased
symbols (aborting on an invalid section number), size them, and key the
result by symbol name. -/
def initSymTabBody (imageBase : Nat) (sections : List PESection)
    (symbols : List PESymbol) : Except Str (List (Str × GoSymbol)) :=
  match collectSyms imageBase sections symbols with
  | .error e => .error e
  | .ok syms => .ok ((sizeSyms syms).foldl (fun t sy => aUpsert t sy.name sy) [])

/-- A one-shot gate: fired flag, memoized result, and an instrumentation
counter for the number of times the computation actually ran. -/
structure OnceState (α : Type) where
  fired : Bool
  res : α
  count : Nat
  deriving Repr

/-- Modelled from the spec: the one-shot gates of the PE handler
(`pclntabOnce`, `symbolTableOnce`), declared outside the embedded source
set.  Under the spec's single-producer model, `Do`/`load` runs the
computation only when the gate has not fired and memoizes the result
(success or the sticky error). -/
def onceDo {α : Type} (compute : α) (g : OnceState α) : α × OnceState α :=
  if g.fired then (g.res, g) else (compute, ⟨true, compute, g.count + 1⟩)

/-- The gate state after `n` calls through `onceDo`. -/
def onceIter {α : Type} (compute : α) : Nat → OnceState α → OnceState α
  | 0, g => g
  | n + 1, g => (onceDo compute (onceIter compute n g)).2

/-- Embeds `peFile.initSymTab` at the gate level: the normalization body runs
behind the `symbolTableOnce` gate. -/
def initSymTab (ib : Nat) (secs : List PESection) (syms : List PESymbol)
    (g : OnceState (Except Str (List (Str × GoSymbol)))) :
    Except Str (List (Str × GoSymbol)) × OnceState (Except Str (List (Str × GoSymbol))) :=
  onceDo (initSymTabBody ib secs syms) g

/-! ### `openPE` and panic recovery -/

/-- The outcome of `pe.NewFile` on the opened file: a parse with the image
base read from a 32- or 64-bit optional header (`none` for an unrecognized
optional-header type), a returned error, or a run-time panic inside the
parser. -/
inductive PEParseOutcome where
  | parsed (imageBase : Option Nat)
  | failed (e : Str)
  | panics (msg : Str)
  deriving DecidableEq, Repr

/-- The handle `openPE` builds on success. -/
structure PEHandle where
  imageBase : Nat
  deriving DecidableEq, Repr

/-- What the caller of `openPE` observes: either the function returns (with a
handle or an error), or the panic escapes and the process aborts. -/
inductive OpenPEOutcome where
  | returned (r : Except Str PEHandle)
  | processAborted (msg : Str)
  deriving Repr

/-- Embeds `openPE`.  The recovery handler is registered with a `go`
statement, not `defer`: the spawned goroutine is not panicking, so by the Go
specification its `recover()` returns nil and the handler can never intercept
a panic raised in `openPE`'s own goroutine; a panic from `pe.NewFile`
therefore propagates out of `openPE` and aborts the process. -/
def openPE (osOpen : Except Str Unit) (parse : PEParseOutcome) : OpenPEOutcome :=
  match osOpen with
  | .error e => .returned (.error ("error when opening the file: ".data ++ e))
  | .ok _ =>
    match parse with
    | .panics msg => .processAborted msg
    | .failed e => .returned (.error ("error when parsing the PE file: ".data ++ e))
    | .parsed none => .returned (.error "unknown optional header type".data)
    | .parsed (some ib) => .returned (.ok ⟨ib⟩)

/-- The behaviour documented by the comment inside `openPE` (and by the
spec): the same function with the recovery handler registered via `defer` in
the same goroutine, so that a parser panic is recovered and surfaced as the
corrupt-file error. -/
def openPEWithDeferredRecover (osOpen : Except Str Unit) (parse : PEParseOutcome) :
    OpenPEOutcome :=
  match osOpen with
  | .error e => .returned (.error ("error when opening the file: ".data ++ e))
  | .ok _ =>
    match parse with
    | .panics msg =>
      .returned (.error ("error when processing PE file, probably corrupt: ".data ++ msg))
    | .failed e => .returned (.error ("error when parsing the PE file: ".data ++ e))
    | .parsed none => .returned (.error "unknown optional header type".data)
    | .parsed (some ib) => .returned (.ok ⟨ib⟩)

/-! ### `Open` magic dispatch -/

def elfMagic : List Nat := [0x7f, 0x45, 0x4c, 0x46]

def peMagic : List Nat := [0x4d, 0x5a]

def maxMagicBufLen : Nat := 4

def machoMagic1 : List Nat := [0xfe, 0xed, 0xfa, 0xce]

def machoMagic2 : List Nat := [0xfe, 0xed, 0xfa, 0xcf]

def machoMagic3 : List Nat := [0xce, 0xfa, 0xed, 0xfe]

def machoMagic4 : List Nat := [0xcf, 0xfa, 0xed, 0xfe]

/-- Embeds `fileMagicMatch` (`bytes.HasPrefix`). -/
def fileMagicMatch (buf magic : List Nat) : Bool :=
  magic.isPrefixOf buf

/-- The container kind `Open` dispatches to. -/
inductive FileKind where
  | elf
  | pe
  | macho
  deriving DecidableEq, Repr

/-- Embeds the error path of `Open` for a readable file with the given
contents.  `os.File.Read` on a regular file returns the available bytes, up
to the buffer size, and returns `(0, io.EOF)` when the file is empty; a
non-nil read error is returned as-is, then a short read yields
`ErrNotEnoughBytesRead`.  The three container openers are abstracted as
outcomes (`none` = success); on success the remaining, error-swallowing setup
of `Open` (build ID, build info) always reaches `return gofile, nil`, which
the embedding reports as the matched kind. -/
def goOpen (elfOut peOut machoOut : Option Str) (contents : List Nat) :
    Except Str FileKind :=
  if contents.length = 0 then .error errEOF
  else if min maxMagicBufLen contents.length < maxMagicBufLen then
    .error errNotEnoughBytesRead
  else
    let buf := contents.take maxMagicBufLen
    if fileMagicMatch buf elfMagic then
      match elfOut with
      | some e => .error e
      | none => .ok .elf
    else if fileMagicMatch buf peMagic then
      match peOut with
      | some e => .error e
      | none => .ok .pe
    else if fileMagicMatch buf machoMagic1 ∨ fileMagicMatch buf machoMagic2 ∨
        fileMagicMatch buf machoMagic3 ∨ fileMagicMatch buf machoMagic4 then
      match machoOut with
      | some e => .error e
      | none => .ok .macho
    else .error errUnsupportedFile

/-! ### Packages, functions and the classifier -/

/-- Embeds `Package` (classification-relevant fields plus the recovered
function and method lists). -/
structure GoFunction where
  name : Str
  offset : Nat
  stop : Nat
  packageName : Str
  deriving DecidableEq, Repr

/-- Embeds `Method`: a `Function` plus the receiver name. -/
structure GoMethod where
  fn : GoFunction
  receiver : Str
  deriving DecidableEq, Repr

/-- Embeds `Package` (`stop` stands for the Go field `End`). -/
structure Package where
  name : Str
  filepath : Str
  functions : List GoFunction
  methods : List GoMethod
  deriving DecidableEq, Repr

/-- Embeds `PackageClass`. -/
inductive PackageClass where
  | unknown
  | std
  | main
  | vendor
  | generated
  deriving DecidableEq, Repr

def knownRepos : List Str := ["golang.org".data, "github.com".data, "gitlab.com".data]

/-- The recursion of `IsStandardLibrary`, made structural on a fuel argument
so that it evaluates inside the kernel; every recursive call strictly shrinks
the name, so any fuel above the name's length is never exhausted and the
zero-fuel branch is unreachable. -/
def stdLookupFuel (std : Str → Bool) : Nat → Str → Bool
  | 0, _ => false
  | fuel + 1, pkg =>
    std pkg ||
      (let tmp := strBefore pkg ['.']
       tmp.length < pkg.length && stdLookupFuel std fuel tmp)

/-- Embeds `IsStandardLibrary`, parameterized by the generated static table
`stdPkgs` (declared in a generated file that is an external collaborator per
the spec): direct membership, or recursively the part of the name before the
first `.`. -/
def isStandardLibrary (std : Str → Bool) (pkg : Str) : Bool :=
  stdLookupFuel std (pkg.length + 1) pkg

/-- Embeds `isGeneratedPackage`. -/
def isGeneratedPackage (pkg : Package) : Bool :=
  pkg.filepath == "<autogenerated>".data ||
    (pkg.name == [] && pkg.filepath == []) ||
    (pkg.filepath == [] && (pkg.name == "__x86".data || pkg.name == "__i686".data))

/-- Embeds `PathPackageClassifier`. -/
structure PathPackageClassifier where
  mainFilepath : Str
  mainFolders : List Str
  deriving DecidableEq, Repr

/-- Embeds `NewPathPackageClassifier`: the main folders are
`path.Dir(mainPkgFilepath)` and `path.Clean(mainPkgFilepath)`. -/
def newPathPackageClassifier (mainPkgFilepath : Str) : PathPackageClassifier :=
  { mainFilepath := mainPkgFilepath,
    mainFolders := [pathDir mainPkgFilepath, pathClean mainPkgFilepath] }

/-- Embeds `PathPackageClassifier.Classify`, rule for rule in source order. -/
def classifyPath (std : Str → Bool) (c : PathPackageClassifier) (pkg : Package) :
    PackageClass :=
  if pkg.name == "type".data || strHasPre pkg.name "type..".data then .generated
  else if isStandardLibrary std pkg.name then .std
  else if isGeneratedPackage pkg then .generated
  else if (strBefore pkg.name "/golang.org".data).length < pkg.name.length &&
      isStandardLibrary std (strBefore pkg.name "/golang.org".data) then .std
  else if strHasPre pkg.name "_cgo_".data || strHasPre pkg.name "x_cgo_".data then .std
  else if strContains pkg.filepath "@v".data then .vendor
  else if strHasPre pkg.filepath (c.mainFilepath ++ "/vendor/".data) ||
      strHasPre pkg.filepath (pathDir c.mainFilepath ++ "/vendor/".data) ||
      strHasPre pkg.filepath (pathDir (pathDir c.mainFilepath) ++ "/vendor/".data) then
    .vendor
  else if c.mainFolders.any (fun folder => pathDir pkg.filepath == folder) then .main
  else if strHasPre pkg.name "vendor/".data then .vendor
  else if knownRepos.any (fun url => strHasPre pkg.name url && strContains pkg.filepath url) then
    .vendor
  else if !strContains pkg.filepath "vendor/".data &&
      pathBase (pathDir pkg.filepath) == pathBase c.mainFilepath then .main
  else if pkg.name == [] && pathBase pkg.filepath == "runtime".data then .std
  else if strHasPre pkg.filepath c.mainFilepath then .main
  else if pkg.name ≠ [] && !strContains pkg.name "/".data &&
      strContains c.mainFilepath pkg.name then .main
  else if c.mainFilepath == "command-line-arguments".data then .main
  else .unknown

/-- A module dependency from the embedded `debug.BuildInfo`. -/
structure ModDep where
  path : Str
  version : Str
  deriving DecidableEq, Repr

/-- The fields of `debug.BuildInfo` the mod classifier reads. -/
structure ModInfo where
  path : Str
  mainPath : Str
  deps : List ModDep
  deriving DecidableEq, Repr

/-- Embeds `ModPackageClassifier.Classify`, rule for rule in source order. -/
def classifyMod (std : Str → Bool) (mi : ModInfo) (pkg : Package) : PackageClass :=
  if isStandardLibrary std pkg.name then .std
  else if pkg.name == "main".data then .main
  else if mi.path ≠ [] &&
      (strHasPre pkg.filepath mi.path || strHasPre pkg.name mi.path) then .main
  else if mi.mainPath ≠ [] &&
      (strHasPre pkg.filepath mi.mainPath || strHasPre pkg.name mi.mainPath) then .main
  else
    match mi.deps.find? (fun dep =>
        strHasPre pkg.filepath dep.path || strHasPre pkg.name dep.path) with
    | some dep => if dep.version == "(devel)".data then .main else .vendor
    | none =>
      if isGeneratedPackage pkg then .generated
      else if strHasPre pkg.name "_cgo_".data || strHasPre pkg.name "x_cgo_".data then .std
      else .vendor

/-! ### Package enumeration (`enumPackages`) -/

/-- One entry of `pclntab.Funcs` as consumed by `enumPackages`: the
package-name, receiver-name and base-name fields of the symbol, plus entry
and end PCs (`stop` stands for Go's `End`). -/
structure LTFunc where
  packageName : Str
  receiverName : Str
  baseName : Str
  entry : Nat
  stop : Nat
  deriving DecidableEq, Repr

/-- Appending the symbol to its package: a method when the receiver name is
non-empty, a function otherwise. -/
def addSym (p : Package) (n : LTFunc) : Package :=
  if n.receiverName ≠ [] then
    { p with methods := p.methods ++ [⟨⟨n.baseName, n.entry, n.stop, n.packageName⟩, n.receiverName⟩] }
  else
    { p with functions := p.functions ++ [⟨n.baseName, n.entry, n.stop, n.packageName⟩] }

/-- The file-path assignment for a newly created package: the sentinel values
`<autogenerated>` and `""` are kept verbatim, anything else becomes
`path.Dir` of the file. -/
def mkFilepath (fp : Str) : Str :=
  if fp == "<autogenerated>".data || fp == [] then fp else pathDir fp

/-- One iteration of the `enumPackages` loop over `tab.Funcs`.  `pcToLine`
gives the source file of a PC (the file component of `tab.PCToLine`).  The
package map is embedded as an insertion-ordered association list. -/
def enumStep (pcToLine : Nat → Str) (st : List (Str × Package)) (n : LTFunc) :
    List (Str × Package) :=
  match aLookup st n.packageName with
  | some p => aUpsert st n.packageName (addSym p n)
  | none =>
    let p1 := addSym ⟨[], [], [], []⟩ n
    let p2 := { p1 with filepath := mkFilepath (pcToLine n.entry) }
    st ++ [(n.packageName, p2)]

/-- The package map built by the `enumPackages` loop. -/
def enumFold (pcToLine : Nat → Str) (funcs : List LTFunc) : List (Str × Package) :=
  funcs.foldl (enumStep pcToLine) []

/-- The classification loop of `enumPackages`: each package gets its name
field set and is classified.  The Go loop ranges over a map in unspecified
order and appends to five per-class slices; the claims below touch neither
the grouping nor the order, so the embedding returns the `(class, package)`
pairs in insertion order. -/
def classifyAll (cl : Package → PackageClass) (st : List (Str × Package)) :
    List (PackageClass × Package) :=
  st.map (fun kv => ((cl { kv.2 with name := kv.1 }), { kv.2 with name := kv.1 }))

/-- Embeds `enumPackages` after the loop: pick the mod classifier when build
info with module info is present, otherwise require a `main` package (hard
error when absent) and build the path classifier from its file path. -/
def enumPackages (std : Str → Bool) (modInfo : Option ModInfo)
    (pcToLine : Nat → Str) (funcs : List LTFunc) :
    Except Str (List (PackageClass × Package)) :=
  let packages := enumFold pcToLine funcs
  match modInfo with
  | some mi => .ok (classifyAll (classifyMod std mi) packages)
  | none =>
    match aLookup packages "main".data with
    | none => .error errNoMainPackage
    | some mainPkg =>
      .ok (classifyAll (classifyPath std (newPathPackageClassifier mainPkg.filepath)) packages)

/-! ### The `GoFile` handle: one-shot gates, PCLNTab, SourceInfo

The mutable `GoFile` (with its two `sync.Once` gates and the `pclntabOnce`
gate inside the PE handler) is embedded as explicit state passing.  The
library is specified as single-producer, so `sync.Once.Do(f)` is embedded
as: run `f` if the gate has not fired, otherwise do nothing.  The
computations behind the gates (`extractModuledata`, the handler's PCLNTAB
search, the package enumeration outcome) live in source files outside the
embedded set, so the environment carries their outcomes; counters record how
often each one actually runs. -/

/-- The normalized moduledata view; only the field the embedded operations
read is kept. -/
structure Moduledata where
  textAddr : Nat
  deriving DecidableEq, Repr

/-- The `gosym.Table` value built by `GoFile.PCLNTab` via
`gosym.NewLineTable(data, textAddr)` + `gosym.NewTable`. -/
structure GoTable where
  textAddr : Nat
  data : List Nat
  deriving DecidableEq, Repr

/-- The five per-class package slices of a `GoFile`. -/
structure PkgLists where
  stdPkgs : List Package
  generated : List Package
  pkgs : List Package
  vendors : List Package
  unknown : List Package
  deriving DecidableEq, Repr

/-- Outcomes of the computations running behind the one-shot gates. -/
structure GFEnv where
  extractMD : Except Str Moduledata
  pclnSearch : Except Str (Nat × List Nat)
  enumOutcome : Except Str PkgLists
  pcFile : Nat → Str
  findLines : Nat → Nat → Nat × Nat

/-- The state of a `GoFile` handle (gate flags, sticky results, caches) plus
instrumentation counters. -/
structure GFState where
  mdDone : Bool
  mdErr : Option Str
  md : Moduledata
  pclnDone : Bool
  pclnRes : Except Str (Nat × List Nat)
  pkgDone : Bool
  pkgErr : Option Str
  pclntab : Option GoTable
  lists : PkgLists
  mdCount : Nat
  searchCount : Nat
  enumCount : Nat
  deriving Repr

/-- The zero value of a freshly opened `GoFile`. -/
def freshGF : GFState :=
  { mdDone := false, mdErr := none, md := ⟨0⟩,
    pclnDone := false, pclnRes := .error [],
    pkgDone := false, pkgErr := none, pclntab := none,
    lists := ⟨[], [], [], [], []⟩,
    mdCount := 0, searchCount := 0, enumCount := 0 }

namespace GoFile

/-- Embeds `GoFile.initModuleData`: inside `initModuleDataOnce`, run the
extraction (the discarded `ensureCompilerVersion` call only feeds the
extraction, which is abstracted by the environment) and store the sticky
result. -/
def initModuleData (env : GFEnv) (s : GFState) : Option Str × GFState :=
  if s.mdDone then (s.mdErr, s)
  else
    match env.extractMD with
    | .ok m =>
      (none, { s with mdDone := true, mdErr := none, md := m, mdCount := s.mdCount + 1 })
    | .error e =>
      (some e, { s with mdDone := true, mdErr := some e, mdCount := s.mdCount + 1 })

/-- Embeds `GoFile.Moduledata`: the zero moduledata on error. -/
def moduledataOp (env : GFEnv) (s : GFState) : Except Str Moduledata × GFState :=
  match initModuleData env s with
  | (some e, s') => (.error e, s')
  | (none, s') => (.ok s'.md, s')

/-- Modelled from the spec: the `pclntabOnce` gate inside the PE handler
(`p.pcln.load(p.getPCLNTABDataImpl)`, declared in a source file outside the
embedded set).  Per the spec's one-shot-gate contract the search runs at most
once per handle and its result (success or error) is memoized. -/
def getPCLNTABData (env : GFEnv) (s : GFState) :
    Except Str (Nat × List Nat) × GFState :=
  if s.pclnDone then (s.pclnRes, s)
  else
    (env.pclnSearch,
     { s with pclnDone := true, pclnRes := env.pclnSearch,
              searchCount := s.searchCount + 1 })

/-- Embeds `GoFile.PCLNTab`: moduledata first, then the handler's PCLNTAB
data, then a fresh `gosym.Table` built from the data and the cached text
address. -/
def pclnTabOp (env : GFEnv) (s : GFState) : Except Str GoTable × GFState :=
  match initModuleData env s with
  | (some e, s') => (.error e, s')
  | (none, s') =>
    match getPCLNTABData env s' with
    | (.error e, s'') => (.error e, s'')
    | (.ok (_, d), s'') => (.ok ⟨s''.md.textAddr, d⟩, s'')

/-- Embeds `GoFile.initPackages`: inside `initPackagesOnce`, fetch the table,
cache it in the `pclntab` field, and run the enumeration, all results
sticky. -/
def initPackages (env : GFEnv) (s : GFState) : Option Str × GFState :=
  if s.pkgDone then (s.pkgErr, s)
  else
    match pclnTabOp env s with
    | (.error e, s') => (some e, { s' with pkgDone := true, pkgErr := some e })
    | (.ok tab, s') =>
      match env.enumOutcome with
      | .error e =>
        (some e, { s' with pkgDone := true, pkgErr := some e, pclntab := some tab,
                           enumCount := s'.enumCount + 1 })
      | .ok L =>
        (none, { s' with pkgDone := true, pkgErr := none, pclntab := some tab,
                         lists := L, enumCount := s'.enumCount + 1 })

/-- Embeds `GoFile.GetPackages`: `initPackages` then return the `pkgs` field
together with the (possibly nil) error. -/
def getPackages (env : GFEnv) (s : GFState) :
    (List Package × Option Str) × GFState :=
  match initPackages env s with
  | (e, s') => ((s'.lists.pkgs, e), s')

/-- Embeds `GoFile.SourceInfo`: reads `f.pclntab` directly.  When the field
is still nil (no successful `initPackages` yet) the method call on the nil
`*gosym.Table` dereferences nil and panics; otherwise the table queries are
the environment's line functions. -/
def sourceInfo (env : GFEnv) (s : GFState) (fn : GoFunction) :
    GoResult (Str × Nat × Nat) :=
  match s.pclntab with
  | none => .panicked "nil pointer dereference".data
  | some _ =>
    let se := env.findLines fn.offset fn.stop
    .ok (env.pcFile fn.offset, se.1, se.2)

/-- A `FileEntry` of a `SourceFile`. -/
structure FileEntry where
  name : Str
  start : Nat
  stop : Nat
  deriving DecidableEq, Repr

/-- A `SourceFile`. -/
structure SourceFile where
  name : Str
  entries : List FileEntry
  deriving DecidableEq, Repr

/-- One `GetSourceFiles` loop iteration: look the file of the entry PC up in
`tmp` (a fresh record named after the file's base name when absent), append
the entry, and store the record back under the full file name. -/
def gsfAdd (env : GFEnv) (tmp : List (Str × SourceFile))
    (displayName : Str) (off stop : Nat) : List (Str × SourceFile) :=
  let fileName := env.pcFile off
  let se := env.findLines off stop
  let e : FileEntry := ⟨displayName, se.1, se.2⟩
  let sf :=
    match aLookup tmp fileName with
    | some sf => sf
    | none => ⟨pathBase fileName, []⟩
  aUpsert tmp fileName { sf with entries := sf.entries ++ [e] }

/-- Lexicographic strict order on embedded strings (Go `<` on `string`). -/
def strLt : Str → Str → Bool
  | [], [] => false
  | [], _ :: _ => true
  | _ :: _, [] => false
  | a :: as, b :: bs => if a < b then true else if b < a then false else strLt as bs

/-- Embeds `GoFile.GetSourceFiles`: group the package's functions (then
methods, displayed as `receiver ++ name`) by source file and sort the files
by name.  Each loop iteration calls `f.pclntab.PCToLine`; when the `pclntab`
field is still nil and the package has any function or method, that call
dereferences nil and panics. -/
def getSourceFiles (env : GFEnv) (s : GFState) (pkg : Package) :
    GoResult (List SourceFile) :=
  match s.pclntab with
  | none =>
    if pkg.functions = [] ∧ pkg.methods = [] then .ok []
    else .panicked "nil pointer dereference".data
  | some _ =>
    let tmp := pkg.functions.foldl
      (fun t fn => gsfAdd env t fn.name fn.offset fn.stop) []
    let tmp2 := pkg.methods.foldl
      (fun t m => gsfAdd env t (m.receiver ++ m.fn.name) m.fn.offset m.fn.stop) tmp
    .ok (sortLe (fun a b => strLt a.name b.name) (tmp2.map (·.2)))

end GoFile

/-! ### Repeated calls on one handle -/

/-- The handle state after `n` calls of `GetPackages`. -/
def gpStates (env : GFEnv) : Nat → GFState
  | 0 => freshGF
  | n + 1 => (GoFile.getPackages env (gpStates env n)).2

/-- The value returned by the `n+1`-st call of `GetPackages`. -/
def gpResult (env : GFEnv) (n : Nat) : List Package × Option Str :=
  (GoFile.getPackages env (gpStates env n)).1

/-- The handle state after `n` calls of `Moduledata`. -/
def mdStates (env : GFEnv) : Nat → GFState
  | 0 => freshGF
  | n + 1 => (GoFile.moduledataOp env (mdStates env n)).2

/-- The value returned by the `n+1`-st call of `Moduledata`. -/
def mdResult (env : GFEnv) (n : Nat) : Except Str Moduledata :=
  (GoFile.moduledataOp env (mdStates env n)).1

/-- The handle state after `n` calls of `PCLNTab`. -/
def ptStates (env : GFEnv) : Nat → GFState
  | 0 => freshGF
  | n + 1 => (GoFile.pclnTabOp env (ptStates env n)).2

/-- The value returned by the `n+1`-st call of `PCLNTab`. -/
def ptResult (env : GFEnv) (n : Nat) : Except Str GoTable :=
  (GoFile.pclnTabOp env (ptStates env n)).1

/-! ### Concrete instances used by witnesses and counterexamples -/

/-- An empty standard-library table for concrete classifier runs. -/
def stdNone : Str → Bool := fun _ => false

/-- A 16-byte section at virtual address 16 (image base 0). -/
def cexSecA : PESection := ⟨"a".data, 16, 16, 1, List.range 16, none⟩

/-- A 16-byte section immediately following `cexSecA`. -/
def cexSecB : PESection := ⟨"b".data, 32, 16, 1, (List.range 16).map (· + 100), none⟩

/-- One section, for the symbol-table runs. -/
def cexSymSections : List PESection := [⟨".text".data, 4096, 16, 1, List.range 16, none⟩]

/-- A well-formed symbol (section 1) followed by one whose section index 5 is
out of range for the single-section file. -/
def cexSymbols : List PESymbol := [⟨"good".data, 16, 1⟩, ⟨"bad".data, 0, 5⟩]

/-- An `.rdata` section with a valid PCLNTAB header at offset 4. -/
def witRdata : PESection :=
  ⟨".rdata".data, 8192, 12, 1, [0, 0, 0, 0, 0xfb, 0xff, 0xff, 0xff, 0, 0, 1, 8], none⟩

/-- An `.rdata` section containing no valid header. -/
def witRdataPlain : PESection := ⟨".rdata".data, 8192, 4, 1, [1, 2, 3, 4], none⟩

/-- A `.text` section with a valid PCLNTAB header at offset 0. -/
def witText : PESection :=
  ⟨".text".data, 4096, 8, 1, [0xfa, 0xff, 0xff, 0xff, 0, 0, 1, 8], none⟩

/-- An environment in which every gated computation succeeds. -/
def witEnv : GFEnv :=
  { extractMD := .ok ⟨4096⟩,
    pclnSearch := .ok (8192, [1, 2, 3]),
    enumOutcome := .ok ⟨[], [], [⟨"main".data, "/home/u/proj/cmd".data, [], []⟩], [], []⟩,
    pcFile := fun _ => "/home/u/proj/cmd/main.go".data,
    findLines := fun a b => (a, b) }

/-- An environment whose moduledata extraction fails. -/
def witEnvBad : GFEnv :=
  { extractMD := .error "moduledata not found".data,
    pclnSearch := .ok (8192, [1, 2, 3]),
    enumOutcome := .ok ⟨[], [], [], [], []⟩,
    pcFile := fun _ => [],
    findLines := fun a b => (a, b) }

/-- A package with one function. -/
def witPkg : Package :=
  ⟨"main".data, "/home/u/proj/cmd".data, [⟨"main".data, 100, 120, "main".data⟩], []⟩

/-- A function of `witPkg`. -/
def witFn : GoFunction := ⟨"main".data, 100, 120, "main".data⟩

/-- A PC-to-file mapping for concrete enumeration runs. -/
def witPcl : Nat → Str := fun pc =>
  if pc = 100 then "/home/u/proj/cmd/main.go".data else "<autogenerated>".data

/-- Two symbols of the `main` package for concrete enumeration runs. -/
def witFuncs : List LTFunc :=
  [⟨"main".data, [], "main".data, 100, 120⟩, ⟨"main".data, [], "init".data, 200, 220⟩]

end Gore

namespace Gore

/-! ## Theorems -/

/-- Powers of two used by the machine-integer reductions, as numerals. -/
theorem pow32_eq : (2 : Nat) ^ 32 = 4294967296 := by norm_num

theorem pow64_eq : (2 : Nat) ^ 64 = 18446744073709551616 := by norm_num

/-- C1: `openPE` was written to capture a parser panic and return it as an
error, but the recovery handler is spawned with `go` instead of being
deferred, so `recover` runs in a goroutine that is not panicking, returns
nil, and the panic from the third-party PE parser escapes `openPE` and
aborts the process.  At a malformed PE file whose parse panics, the embedded
`openPE` aborts the process, while the deferred-recover variant that the
source comment (and the spec) describe returns the corrupt-file error. -/
theorem openPE_go_statement_drops_panic :
    openPE (.ok ()) (.panics "runtime error: index out of range".data) =
      .processAborted "runtime error: index out of range".data ∧
    openPEWithDeferredRecover (.ok ()) (.panics "runtime error: index out of range".data) =
      .returned (.error
        ("error when processing PE file, probably corrupt: runtime error: index out of range".data)) := by
  exact ⟨rfl, rfl⟩

/-- C6 counterexample: on a symbol table holding one well-formed symbol and
one symbol whose section index 5 exceeds the single section, the claim
predicts that the bad symbol is skipped and the table with the remaining
symbol is returned; the code instead aborts the whole normalization with the
invalid-section-number error.  Removing the bad symbol shows the remaining
input is otherwise processable. -/
theorem initSymTab_out_of_range_counterexample :
    initSymTabBody 0 cexSymSections cexSymbols = .error errInvalidSectionNumber ∧
    (initSymTabBody 0 cexSymSections cexSymbols).isOk = false ∧
    initSymTabBody 0 cexSymSections [⟨"good".data, 16, 1⟩] =
      .ok [("good".data, ⟨"good".data, 4112, 0⟩)] := by
  exact ⟨rfl, rfl, rfl⟩

/-- C6 amended: a symbol whose section number is outside `{0, -1, -2}` and
out of range for the section list makes the whole PE symbol-table
normalization fail with the invalid-section-number error (no per-item
skip). -/
theorem initSymTab_out_of_range_is_hard_error (ib : Nat) (secs : List PESection)
    (syms : List PESymbol)
    (h : ∃ s ∈ syms, ¬(s.sectionNumber = 0 ∨ s.sectionNumber = -1 ∨ s.sectionNumber = -2) ∧
      (s.sectionNumber < 0 ∨ (secs.length : Int) < s.sectionNumber)) :
    initSymTabBody ib secs syms = .error errInvalidSectionNumber := by
  have key : collectSyms ib secs syms = .error errInvalidSectionNumber := by
    induction syms with
    | nil => simp at h
    | cons s rest ih =>
      rcases h with ⟨t, ht, htriple, hrange⟩
      rcases List.mem_cons.mp ht with rfl | hmem
      · rw [collectSyms]
        rw [if_neg htriple, if_pos hrange]
      · rw [collectSyms]
        have hrec : collectSyms ib secs rest = .error errInvalidSectionNumber :=
          ih ⟨t, hmem, htriple, hrange⟩
        by_cases h1 : s.sectionNumber = 0 ∨ s.sectionNumber = -1 ∨ s.sectionNumber = -2
        · rw [if_pos h1, hrec]; rfl
        · by_cases h2 : s.sectionNumber < 0 ∨ (secs.length : Int) < s.sectionNumber
          · rw [if_neg h1, if_pos h2]
          · rw [if_neg h1, if_neg h2, hrec]; rfl
  rw [initSymTabBody, key]

/-- Witness for the amended C6 theorem at the concrete counterexample
input. -/
theorem initSymTab_out_of_range_is_hard_error_witness :
    initSymTabBody 0 cexSymSections cexSymbols = .error errInvalidSectionNumber :=
  initSymTab_out_of_range_is_hard_error 0 cexSymSections cexSymbols (by decide)

/-- C7 counterexample: with two back-to-back sections (image base 0), the
address `base + len(section)` of the first section is the base of the second,
so the query succeeds with the second section's data instead of yielding any
error. -/
theorem boundary_address_hits_next_section :
    (0 + cexSecA.virtualAddress) % 2 ^ 64 + cexSecA.data.length = 32 ∧
    getSectionDataFromAddress 0 [cexSecA, cexSecB] 32 = .ok (32, cexSecB.data) ∧
    goFileBytes 0 [cexSecA, cexSecB] 32 4 = .ok [100, 101, 102, 103] := by
  exact ⟨by decide, by decide, by decide⟩

/-- No section contains the address, so the scan runs off the list. -/
theorem gsdfa_none_of_no_section (ib : Nat) (secs : List PESection) (a : Nat)
    (h : ∀ t ∈ secs, ¬ secContains ib t a) :
    getSectionDataFromAddress ib secs a = .err errSectionDoesNotExist := by
  induction secs with
  | nil => rfl
  | cons s rest ih =>
    rw [getSectionDataFromAddress, if_neg (h s (List.mem_cons_self s rest))]
    exact ih fun t ht => h t (List.mem_cons_of_mem s ht)

/-- C7 amended: the address `base + len(section)` lies outside the section's
own half-open range (absent `uint32`/`uint64` wraparound), and when no other
mapped section contains it either, `getSectionDataFromAddress` — and hence
`Bytes` at any length — fails with `ErrSectionDoesNotExist`. -/
theorem boundary_address_section_missing (ib : Nat) (secs : List PESection)
    (s : PESection) (hs : s ∈ secs)
    (h32 : s.virtualAddress + s.size < 2 ^ 32)
    (h64 : ib + s.virtualAddress + s.size < 2 ^ 64)
    (hlen : s.data.length = s.size)
    (hothers : ∀ t ∈ secs, t ≠ s → t.offset ≠ 0 →
      ¬ secContains ib t ((ib + s.virtualAddress) % 2 ^ 64 + s.data.length)) :
    ¬ secContains ib s ((ib + s.virtualAddress) % 2 ^ 64 + s.data.length) ∧
    getSectionDataFromAddress ib secs ((ib + s.virtualAddress) % 2 ^ 64 + s.data.length) =
      .err errSectionDoesNotExist ∧
    ∀ len, goFileBytes ib secs ((ib + s.virtualAddress) % 2 ^ 64 + s.data.length) len =
      .err errSectionDoesNotExist := by
  have hself : ¬ secContains ib s ((ib + s.virtualAddress) % 2 ^ 64 + s.data.length) := by
    rintro ⟨-, -, hlt⟩
    rw [hlen] at hlt
    simp only [pow32_eq, pow64_eq] at hlt h32 h64
    omega
  have hall : ∀ t ∈ secs, ¬ secContains ib t ((ib + s.virtualAddress) % 2 ^ 64 + s.data.length) := by
    intro t ht
    by_cases hts : t = s
    · subst hts; exact hself
    · intro hc
      exact hothers t ht hts hc.1 hc
  have hnone := gsdfa_none_of_no_section ib secs _ hall
  refine ⟨hself, hnone, fun len => ?_⟩
  rw [goFileBytes, hnone]

/-- Witness for the amended C7 theorem: a single-section file, queried at the
end-of-section boundary. -/
theorem boundary_address_section_missing_witness :
    getSectionDataFromAddress 0 [cexSecA] ((0 + cexSecA.virtualAddress) % 2 ^ 64 + cexSecA.data.length) =
      .err errSectionDoesNotExist :=
  (boundary_address_section_missing 0 [cexSecA] cexSecA (by decide) (by decide)
    (by decide) (by decide) (by decide)).2.1

/-- C8 counterexample: `os.File.Read` on an empty file returns `(0, io.EOF)`
and `Open` returns that read error before the short-read check, so an empty
file (which is shorter than 4 bytes) yields the EOF error rather than
`ErrNotEnoughBytesRead`. -/
theorem open_empty_file_returns_eof :
    goOpen none none none [] = .error errEOF ∧
    (errEOF == errNotEnoughBytesRead) = false := by
  exact ⟨rfl, rfl⟩

/-- C8 amended: an empty file yields the EOF read error; a file of 1–3 bytes
yields `ErrNotEnoughBytesRead`; a file of at least 4 bytes whose 4-byte
prefix matches none of the ELF, PE and Mach-O magics yields
`ErrUnsupportedFile`. -/
theorem goOpen_short_and_unknown_magic (eo po mo : Option Str) (contents : List Nat) :
    (contents.length = 0 → goOpen eo po mo contents = .error errEOF) ∧
    (1 ≤ contents.length → contents.length < 4 →
      goOpen eo po mo contents = .error errNotEnoughBytesRead) ∧
    (4 ≤ contents.length →
      fileMagicMatch (contents.take 4) elfMagic = false →
      fileMagicMatch (contents.take 4) peMagic = false →
      fileMagicMatch (contents.take 4) machoMagic1 = false →
      fileMagicMatch (contents.take 4) machoMagic2 = false →
      fileMagicMatch (contents.take 4) machoMagic3 = false →
      fileMagicMatch (contents.take 4) machoMagic4 = false →
      goOpen eo po mo contents = .error errUnsupportedFile) := by
  refine ⟨fun h0 => ?_, fun h1 h3 => ?_, fun h4 he hp hm1 hm2 hm3 hm4 => ?_⟩
  · rw [goOpen.eq_def, if_pos h0]
  · rw [goOpen.eq_def, if_neg (by omega), if_pos (by rw [maxMagicBufLen]; omega)]
  · rw [goOpen.eq_def, if_neg (by omega), if_neg (by rw [maxMagicBufLen]; omega)]
    simp only [maxMagicBufLen, he, hp, hm1, hm2, hm3, hm4]
    simp

/-- `getSectionDataFromAddress` either finds a section whose base is at most
the address (and below `2^64`), or returns an error; it never panics. -/
theorem gsdfa_cases (ib : Nat) (secs : List PESection) (a : Nat) :
    (∃ b d, getSectionDataFromAddress ib secs a = .ok (b, d) ∧ b ≤ a ∧ b < 2 ^ 64) ∨
    (∃ e, getSectionDataFromAddress ib secs a = .err e) := by
  induction secs with
  | nil => exact Or.inr ⟨errSectionDoesNotExist, rfl⟩
  | cons s rest ih =>
    by_cases hc : secContains ib s a
    · rw [getSectionDataFromAddress, if_pos hc]
      match hd : s.dataErr with
      | some e => exact Or.inr ⟨e, rfl⟩
      | none =>
        refine Or.inl ⟨(ib + s.virtualAddress) % 2 ^ 64, s.data, rfl, hc.2.1, ?_⟩
        exact Nat.mod_lt _ (by positivity)
    · rw [getSectionDataFromAddress, if_neg hc]
      exact ih

/-- C3: `Bytes(entry, stop - entry)` (over the PE back end) returns a byte
slice of length exactly `stop - entry` or an error — never a short read
without an error, and never a slice-bounds panic — for any function with
`entry ≤ stop < 2^64`. -/
theorem goFileBytes_exact_length (ib : Nat) (secs : List PESection)
    (entry stop : Nat) (hle : entry ≤ stop) (hlt : stop < 2 ^ 64) :
    (∃ l, goFileBytes ib secs entry (stop - entry) = .ok l ∧ l.length = stop - entry) ∨
    (∃ e, goFileBytes ib secs entry (stop - entry) = .err e) := by
  simp only [pow64_eq] at hlt
  rcases gsdfa_cases ib secs entry with ⟨b, d, hok, hba, hb64⟩ | ⟨e, herr⟩
  · simp only [pow64_eq] at hb64
    have hhi : u64 (u64 (entry + (stop - entry)) + 2 ^ 64 - b) = stop - b := by
      unfold u64; simp only [pow64_eq]; omega
    have hlo : u64 (entry + 2 ^ 64 - b) = entry - b := by
      unfold u64; simp only [pow64_eq]; omega
    by_cases hlen : stop - b > d.length
    · refine Or.inr ⟨errLengthOutOfBounds, ?_⟩
      simp only [goFileBytes, hok, hhi, hlo]
      rw [if_pos hlen]
    · refine Or.inl ⟨(d.take (stop - b)).drop (entry - b), ?_, ?_⟩
      · simp only [goFileBytes, hok, hhi, hlo]
        rw [if_neg hlen, if_pos (by omega)]
      · rw [List.length_drop, List.length_take]
        omega
  · refine Or.inr ⟨e, ?_⟩
    simp only [goFileBytes, herr]

/-- Witness for the C3 theorem: a concrete section and a function spanning
`[18, 20)` inside it. -/
theorem goFileBytes_exact_length_witness :
    (∃ l, goFileBytes 0 [cexSecA] 18 (20 - 18) = .ok l ∧ l.length = 20 - 18) ∨
    (∃ e, goFileBytes 0 [cexSecA] 18 (20 - 18) = .err e) :=
  goFileBytes_exact_length 0 [cexSecA] 18 20 (by decide) (by decide)

/-- A found header offset is inside the data. -/
theorem firstTabOffset_lt {d : List Nat} {o : Nat} (h : firstTabOffset d = some o) :
    o < d.length := by
  unfold firstTabOffset at h
  exact List.mem_range.mp (List.mem_of_find?_eq_some h)

/-- A scan item yielding no table (missing section, or readable section with
no valid header) is skipped by the section loop. -/
theorem searchLoop_skip (secs : List PESection) (n : Str) (rest : List Str)
    (h : peSectionByName secs n = none ∨
      ∃ sec, peSectionByName secs n = some sec ∧ sec.dataErr = none ∧
        firstTabOffset sec.data = none) :
    searchForPCLNTabLoop secs (n :: rest) = searchForPCLNTabLoop secs rest := by
  rcases h with hn | ⟨sec, hs, hde, hf⟩
  · simp only [searchForPCLNTabLoop, hn]
  · simp only [searchForPCLNTabLoop, hs, hde, searchSectionForTab, hf]

/-- A scan item with a readable section holding a valid header at least
offset `o` stops the loop and reports the tail from `o` at the section's
virtual address plus `o` (in `uint32` arithmetic). -/
theorem searchLoop_hit (secs : List PESection) (n : Str) (rest : List Str)
    (sec : PESection) (o : Nat) (hs : peSectionByName secs n = some sec)
    (hde : sec.dataErr = none) (hf : firstTabOffset sec.data = some o) :
    searchForPCLNTabLoop secs (n :: rest) =
      .ok ((sec.virtualAddress + o) % 2 ^ 32, sec.data.drop o) := by
  have hlt := firstTabOffset_lt hf
  simp only [searchForPCLNTabLoop, hs, hde, searchSectionForTab, hf, List.length_drop]
  have ho : sec.data.length - (sec.data.length - o) = o := by omega
  rw [ho]

/-- C4: the PE PCLNTAB locator scans `.rdata` first and then `.text`.  A
valid header at offset `o` of a readable `.rdata` wins outright (whatever
`.text` holds) and yields the tail of the section from the magic at address
`imageBase + sec.VA + o` (exactly so absent `uint32`/`uint64` overflow); when
`.rdata` decodes no header the scanner moves to `.text`; when neither yields
a valid header the lookup fails with the no-PCLNTAB error. -/
theorem pe_pclntab_search (ib : Nat) (secs : List PESection) :
    (∀ sec o, peSectionByName secs ".rdata".data = some sec → sec.dataErr = none →
      firstTabOffset sec.data = some o →
      getPCLNTABDataImpl ib secs =
        .ok (u64 (ib + (sec.virtualAddress + o) % 2 ^ 32), sec.data.drop o) ∧
      (sec.virtualAddress + o < 2 ^ 32 → ib + sec.virtualAddress + o < 2 ^ 64 →
        getPCLNTABDataImpl ib secs = .ok (ib + sec.virtualAddress + o, sec.data.drop o))) ∧
    (∀ sec sec' o', peSectionByName secs ".rdata".data = some sec → sec.dataErr = none →
      firstTabOffset sec.data = none →
      peSectionByName secs ".text".data = some sec' → sec'.dataErr = none →
      firstTabOffset sec'.data = some o' →
      getPCLNTABDataImpl ib secs =
        .ok (u64 (ib + (sec'.virtualAddress + o') % 2 ^ 32), sec'.data.drop o')) ∧
    ((peSectionByName secs ".rdata".data = none ∨
        ∃ sec, peSectionByName secs ".rdata".data = some sec ∧ sec.dataErr = none ∧
          firstTabOffset sec.data = none) →
      (peSectionByName secs ".text".data = none ∨
        ∃ sec, peSectionByName secs ".text".data = some sec ∧ sec.dataErr = none ∧
          firstTabOffset sec.data = none) →
      getPCLNTABDataImpl ib secs = .err errNoPCLNTab) := by
  refine ⟨fun sec o hs hde hf => ?_, fun sec sec' o' hs hde hf hs' hde' hf' => ?_,
    fun hr ht => ?_⟩
  · have hbase : getPCLNTABDataImpl ib secs =
        .ok (u64 (ib + (sec.virtualAddress + o) % 2 ^ 32), sec.data.drop o) := by
      rw [getPCLNTABDataImpl, searchForPCLNTab, searchLoop_hit secs _ _ sec o hs hde hf]
    refine ⟨hbase, fun h32 h64 => ?_⟩
    rw [hbase, Nat.mod_eq_of_lt h32]
    unfold u64
    rw [← Nat.add_assoc, Nat.mod_eq_of_lt h64]
  · rw [getPCLNTABDataImpl, searchForPCLNTab,
      searchLoop_skip secs _ _ (Or.inr ⟨sec, hs, hde, hf⟩),
      searchLoop_hit secs _ _ sec' o' hs' hde' hf']
  · rw [getPCLNTABDataImpl, searchForPCLNTab, searchLoop_skip secs _ _ hr,
      searchLoop_skip secs _ _ ht]
    rfl

/-- Witness for the C4 theorem: a hit in `.rdata` at offset 4; a plain
`.rdata` with a hit in `.text` at offset 0; and a file with no valid header
anywhere. -/
theorem pe_pclntab_search_witness :
    getPCLNTABDataImpl 4194304 [witRdata] = .ok (4194304 + 8192 + 4, witRdata.data.drop 4) ∧
    getPCLNTABDataImpl 4194304 [witRdataPlain, witText] =
      .ok (u64 (4194304 + (4096 + 0) % 2 ^ 32), witText.data.drop 0) ∧
    getPCLNTABDataImpl 4194304 [witRdataPlain] = .err errNoPCLNTab := by
  refine ⟨?_, ?_, ?_⟩
  · exact ((pe_pclntab_search 4194304 [witRdata]).1 witRdata 4 (by decide) (by decide)
      (by decide)).2 (by decide) (by decide)
  · exact (pe_pclntab_search 4194304 [witRdataPlain, witText]).2.1 witRdataPlain witText 0
      (by decide) (by decide) (by decide) (by decide) (by decide) (by decide)
  · exact (pe_pclntab_search 4194304 [witRdataPlain]).2.2
      (Or.inr ⟨witRdataPlain, by decide, by decide, by decide⟩) (Or.inl (by decide))

/-- One-step characterization of the association-list lookup. -/
theorem aLookup_cons {β : Type} (kv : Str × β) (rest : List (Str × β)) (k : Str) :
    aLookup (kv :: rest) k = if kv.1 == k then some kv.2 else aLookup rest k := by
  rw [aLookup, List.find?]
  cases hkv : (kv.1 == k) with
  | true => simp [hkv]
  | false => simp [hkv, aLookup]

/-- Appending a new binding at the tail is found when the key was absent. -/
theorem aLookup_append_right {β : Type} (st : List (Str × β)) (k : Str) (v : β)
    (h : aLookup st k = none) : aLookup (st ++ [(k, v)]) k = some v := by
  induction st with
  | nil => simp [aLookup_cons, aLookup]
  | cons kv rest ih =>
    rw [aLookup_cons] at h
    rw [List.cons_append, aLookup_cons]
    by_cases hkv : (kv.1 == k) = true
    · rw [if_pos hkv] at h; cases h
    · rw [if_neg hkv] at h
      rw [if_neg hkv]
      exact ih h

/-- Appending a binding for a different key does not change a lookup. -/
theorem aLookup_append_other {β : Type} (st : List (Str × β)) (k k' : Str) (v : β)
    (hne : k' ≠ k) : aLookup (st ++ [(k', v)]) k = aLookup st k := by
  induction st with
  | nil =>
    rw [List.nil_append, aLookup_cons, if_neg (by simp [hne])]
  | cons kv rest ih =>
    rw [List.cons_append, aLookup_cons, aLookup_cons]
    by_cases hkv : (kv.1 == k) = true
    · rw [if_pos hkv, if_pos hkv]
    · rw [if_neg hkv, if_neg hkv]
      exact ih

/-- A lookup hit means some binding carries the key. -/
theorem any_of_aLookup_some {β : Type} {st : List (Str × β)} {k : Str} {p : β}
    (h : aLookup st k = some p) : st.any (fun kv => kv.1 == k) = true := by
  induction st with
  | nil => simp [aLookup] at h
  | cons kv rest ih =>
    rw [aLookup_cons] at h
    rw [List.any_cons]
    by_cases hkv : (kv.1 == k) = true
    · simp [hkv]
    · rw [if_neg hkv] at h
      simp [ih h]

/-- Replacing the value under `k` in every binding that carries `k` makes a
lookup that previously succeeded return the new value. -/
theorem aLookup_map_replace {β : Type} {st : List (Str × β)} {k : Str} {p : β} (v : β)
    (h : aLookup st k = some p) :
    aLookup (st.map (fun kv => if kv.1 == k then (kv.1, v) else kv)) k = some v := by
  induction st with
  | nil => simp [aLookup] at h
  | cons kv rest ih =>
    rw [aLookup_cons] at h
    rw [List.map_cons]
    by_cases hkv : (kv.1 == k) = true
    · rw [if_pos hkv, aLookup_cons, if_pos hkv]
    · rw [if_neg hkv] at h
      rw [if_neg hkv, aLookup_cons, if_neg hkv]
      exact ih h

/-- `aUpsert` stores the new value under its key when the key was present. -/
theorem aLookup_upsert_self {β : Type} {st : List (Str × β)} {k : Str} {p : β} (v : β)
    (h : aLookup st k = some p) : aLookup (aUpsert st k v) k = some v := by
  rw [aUpsert, if_pos (any_of_aLookup_some h)]
  exact aLookup_map_replace v h

/-- Replacing values under one key does not change lookups of another. -/
theorem aLookup_map_other {β : Type} (st : List (Str × β)) (k k' : Str) (v : β)
    (hne : k' ≠ k) :
    aLookup (st.map (fun kv => if kv.1 == k' then (kv.1, v) else kv)) k = aLookup st k := by
  induction st with
  | nil => rfl
  | cons kv rest ih =>
    rw [List.map_cons, aLookup_cons (k := k)]
    by_cases hkv : (kv.1 == k') = true
    · have h1 : kv.1 = k' := by simpa using hkv
      have h2 : (kv.1 == k) = false := by simp [h1, hne]
      rw [if_pos hkv, aLookup_cons]
      simp only [h2, Bool.false_eq_true, if_false]
      rw [ih]
    · rw [if_neg hkv, aLookup_cons, ih]

/-- `aUpsert` under one key does not change lookups of another. -/
theorem aLookup_upsert_other {β : Type} (st : List (Str × β)) (k k' : Str) (v : β)
    (hne : k' ≠ k) : aLookup (aUpsert st k' v) k = aLookup st k := by
  rw [aUpsert]
  by_cases hany : st.any (fun kv => kv.1 == k') = true
  · rw [if_pos hany]
    exact aLookup_map_other st k k' v hne
  · rw [if_neg hany]
    exact aLookup_append_other st k k' v hne

/-- Appending a symbol to a package never touches its file path. -/
theorem addSym_filepath (p : Package) (n : LTFunc) : (addSym p n).filepath = p.filepath := by
  rw [addSym]
  split <;> rfl

/-- An enumeration step for a symbol of another package does not change the
lookup of `pn`. -/
theorem enumStep_other (pcToLine : Nat → Str) (st : List (Str × Package)) (n : LTFunc)
    (pn : Str) (hne : n.packageName ≠ pn) :
    aLookup (enumStep pcToLine st n) pn = aLookup st pn := by
  cases h : aLookup st n.packageName with
  | none =>
    simp only [enumStep, h]
    exact aLookup_append_other st pn n.packageName _ hne
  | some p =>
    simp only [enumStep, h]
    exact aLookup_upsert_other st pn n.packageName _ hne

/-- The step that first sees a package name creates the package with its file
path derived from the entry PC of that symbol. -/
theorem enumStep_new (pcToLine : Nat → Str) (st : List (Str × Package)) (n : LTFunc)
    (h : aLookup st n.packageName = none) :
    ∃ p, aLookup (enumStep pcToLine st n) n.packageName = some p ∧
      p.filepath = mkFilepath (pcToLine n.entry) := by
  simp only [enumStep, h]
  exact ⟨_, aLookup_append_right st _ _ h, rfl⟩

/-- A step for an already-present package only appends the symbol. -/
theorem enumStep_existing (pcToLine : Nat → Str) (st : List (Str × Package)) (n : LTFunc)
    (p : Package) (h : aLookup st n.packageName = some p) :
    aLookup (enumStep pcToLine st n) n.packageName = some (addSym p n) := by
  simp only [enumStep, h]
  exact aLookup_upsert_self _ h

/-- Later symbols never change the file path of an existing package. -/
theorem enumFoldFrom_preserved (pcToLine : Nat → Str) (fs : List LTFunc) (pn : Str) :
    ∀ st p, aLookup st pn = some p →
      ∃ p', aLookup (fs.foldl (enumStep pcToLine) st) pn = some p' ∧
        p'.filepath = p.filepath := by
  induction fs with
  | nil => exact fun st p h => ⟨p, h, rfl⟩
  | cons n rest ih =>
    intro st p h
    rw [List.foldl_cons]
    by_cases hne : n.packageName = pn
    · subst hne
      obtain ⟨p', h', hf⟩ := ih _ _ (enumStep_existing pcToLine st n p h)
      exact ⟨p', h', by rw [hf, addSym_filepath]⟩
    · exact ih _ _ (by rw [enumStep_other pcToLine st n pn hne]; exact h)

/-- A package name that never occurs is never created. -/
theorem enumFoldFrom_none (pcToLine : Nat → Str) (fs : List LTFunc) (pn : Str) :
    ∀ st, aLookup st pn = none → fs.find? (fun n => n.packageName == pn) = none →
      aLookup (fs.foldl (enumStep pcToLine) st) pn = none := by
  induction fs with
  | nil => exact fun st h _ => h
  | cons n rest ih =>
    intro st h hf
    rw [List.find?] at hf
    cases hb : (n.packageName == pn) with
    | true => rw [hb] at hf; simp at hf
    | false =>
      rw [hb] at hf
      rw [List.foldl_cons]
      refine ih _ ?_ hf
      rw [enumStep_other pcToLine st n pn (fun hh => by simp [hh] at hb)]
      exact h

/-- The first occurrence of a package name creates the package, whose file
path is taken from the entry PC of that first symbol and survives the rest of
the enumeration. -/
theorem enumFoldFrom_first (pcToLine : Nat → Str) (fs : List LTFunc) (pn : Str)
    (n0 : LTFunc) :
    ∀ st, aLookup st pn = none → fs.find? (fun n => n.packageName == pn) = some n0 →
      ∃ p, aLookup (fs.foldl (enumStep pcToLine) st) pn = some p ∧
        p.filepath = mkFilepath (pcToLine n0.entry) := by
  induction fs with
  | nil => intro st _ hf; cases hf
  | cons n rest ih =>
    intro st h hf
    rw [List.find?] at hf
    rw [List.foldl_cons]
    cases hb : (n.packageName == pn) with
    | true =>
      rw [hb] at hf
      have hpn : n.packageName = pn := by simpa using hb
      have hn0 : n0 = n := by simpa using hf.symm
      subst hn0
      obtain ⟨p, hp, hfp⟩ := enumStep_new pcToLine st n0 (by rw [hpn]; exact h)
      rw [hpn] at hp
      obtain ⟨p', hp', hfp'⟩ := enumFoldFrom_preserved pcToLine rest pn _ _ hp
      exact ⟨p', hp', by rw [hfp', hfp]⟩
    | false =>
      rw [hb] at hf
      refine ih _ ?_ hf
      rw [enumStep_other pcToLine st n pn (fun hh => by simp [hh] at hb)]
      exact h

/-- C9: during package enumeration a `Package` exists in the package map
exactly when its name occurs among the line-table symbols; the package
created at the first such symbol carries a file path computed once from the
file of that symbol's entry PC — kept verbatim for the sentinels
`<autogenerated>` and `""`, and `path.Dir` of the file otherwise — and no
later symbol of the package changes it. -/
theorem enumPackages_creation_invariant (pcToLine : Nat → Str) (funcs : List LTFunc)
    (pn : Str) :
    (funcs.find? (fun n => n.packageName == pn) = none →
      aLookup (enumFold pcToLine funcs) pn = none) ∧
    (∀ n0, funcs.find? (fun n => n.packageName == pn) = some n0 →
      ∃ p, aLookup (enumFold pcToLine funcs) pn = some p ∧
        p.filepath = mkFilepath (pcToLine n0.entry)) ∧
    mkFilepath "<autogenerated>".data = "<autogenerated>".data ∧
    mkFilepath [] = [] ∧
    ∀ fp, fp ≠ "<autogenerated>".data → fp ≠ [] → mkFilepath fp = pathDir fp := by
  refine ⟨fun h => enumFoldFrom_none pcToLine funcs pn [] rfl h,
    fun n0 h => enumFoldFrom_first pcToLine funcs pn n0 [] rfl h, rfl, rfl,
    fun fp h1 h2 => ?_⟩
  rw [mkFilepath, if_neg (by simp [h1, h2])]

/-- Witness for the C9 theorem: the `main` package of a concrete symbol list,
created at its first symbol with the file path of PC 100. -/
theorem enumPackages_creation_invariant_witness :
    ∃ p, aLookup (enumFold witPcl witFuncs) "main".data = some p ∧
      p.filepath = mkFilepath (witPcl 100) :=
  (enumPackages_creation_invariant witPcl witFuncs "main".data).2.1
    ⟨"main".data, [], "main".data, 100, 120⟩ (by decide)

/-! ### `path.Clean` is idempotent

`path.Dir` ends in a `Clean`, so the classifier's `path.Clean(mainFilepath)`
is the file path itself whenever that path came out of the package
assembler.  The proof analyses the component stack of the clean algorithm:
a cleaned path splits back into exactly its stack components, and re-running
the stack algorithm on an already-clean component list is the identity. -/

theorem splitComps_ne_nil (p : Str) : splitComps p ≠ [] := by
  cases p with
  | nil => simp [splitComps]
  | cons c cs =>
    rw [splitComps]
    cases h : splitComps cs with
    | nil => simp
    | cons a t => by_cases hc : c = '/' <;> simp [hc]

theorem splitComps_no_slash (p : Str) : ∀ c ∈ splitComps p, '/' ∉ c := by
  induction p with
  | nil => intro c hc; simp [splitComps] at hc; simp [hc]
  | cons a as ih =>
    intro c hc
    rw [splitComps] at hc
    cases h : splitComps as with
    | nil => exact absurd h (splitComps_ne_nil as)
    | cons b t =>
      rw [h] at hc
      dsimp only at hc
      by_cases ha : a = '/'
      · rw [if_pos ha] at hc
        rcases List.mem_cons.mp hc with rfl | hc2
        · simp
        · exact ih c (h ▸ hc2)
      · rw [if_neg ha] at hc
        rcases List.mem_cons.mp hc with rfl | hc2
        · intro hmem
          rcases List.mem_cons.mp hmem with h1 | h2
          · exact ha h1.symm
          · exact ih b (h ▸ List.mem_cons_self b t) h2
        · exact ih c (h ▸ List.mem_cons.mpr (Or.inr hc2))

theorem splitComps_single (c : Str) (hne : c ≠ []) (hc : '/' ∉ c) : splitComps c = [c] := by
  induction c with
  | nil => simp at hne
  | cons a as ih =>
    rw [splitComps]
    have ha : a ≠ '/' := fun h => hc (h ▸ List.mem_cons_self a as)
    by_cases has : as = []
    · subst has
      simp [splitComps, ha]
    · rw [ih has (fun h => hc (List.mem_cons.mpr (Or.inr h)))]
      simp [ha]

theorem splitComps_append (c : Str) (hc : '/' ∉ c) (q : Str) :
    splitComps (c ++ '/' :: q) = c :: splitComps q := by
  induction c with
  | nil =>
    simp only [List.nil_append]
    rw [splitComps]
    cases h : splitComps q with
    | nil => exact absurd h (splitComps_ne_nil q)
    | cons a t => simp
  | cons a as ih =>
    have ha : a ≠ '/' := fun h => hc (h ▸ List.mem_cons_self a as)
    rw [List.cons_append, splitComps, ih (fun h => hc (List.mem_cons.mpr (Or.inr h)))]
    simp [ha]

theorem splitComps_flatten (cs : List Str) (hne2 : cs ≠ [])
    (h : ∀ c ∈ cs, c ≠ [] ∧ '/' ∉ c) :
    splitComps ((List.intersperse ['/'] cs).flatten) = cs := by
  induction cs with
  | nil => simp at hne2
  | cons c rest ih =>
    cases rest with
    | nil =>
      simp only [List.intersperse_single, List.flatten, List.append_nil]
      exact splitComps_single c (h c (List.mem_cons_self c [])).1 (h c (List.mem_cons_self c [])).2
    | cons d t =>
      have hflat : (List.intersperse ['/'] (c :: d :: t)).flatten =
          c ++ '/' :: (List.intersperse ['/'] (d :: t)).flatten := by
        simp [List.intersperse]
      rw [hflat, splitComps_append c (h c (List.mem_cons_self c _)).2,
        ih (by simp) (fun x hx => h x (List.mem_cons.mpr (Or.inr hx)))]

theorem cleanStep_push (r : Bool) (st : List Str) (c : Str) (hc : c ≠ ['.', '.']) :
    cleanStep r st c = c :: st := by
  rw [cleanStep.eq_def, if_neg hc]

theorem cleanStep_dots_nil : cleanStep false [] ['.', '.'] = [['.', '.']] := rfl

theorem cleanStep_dots_top (rest : List Str) :
    cleanStep false (['.', '.'] :: rest) ['.', '.'] = ['.', '.'] :: ['.', '.'] :: rest := by
  rw [cleanStep.eq_def, if_pos rfl]
  dsimp only
  rw [if_pos rfl]

theorem cleanStep_pop (r : Bool) (n0 : Str) (rest : List Str) (hn : n0 ≠ ['.', '.']) :
    cleanStep r (n0 :: rest) ['.', '.'] = rest := by
  rw [cleanStep.eq_def, if_pos rfl]
  dsimp only
  rw [if_neg hn]

theorem cleanStep_rooted_nil : cleanStep true [] ['.', '.'] = [] := rfl

theorem foldl_nondots (r : Bool) (cs : List Str) (st : List Str)
    (h : ∀ c ∈ cs, c ≠ ['.', '.']) :
    cs.foldl (cleanStep r) st = cs.reverse ++ st := by
  induction cs generalizing st with
  | nil => simp
  | cons c rest ih =>
    rw [List.foldl_cons, cleanStep_push r st c (h c (List.mem_cons_self c _)),
      ih _ (fun x hx => h x (List.mem_cons.mpr (Or.inr hx)))]
    simp

theorem foldl_dots (k j : Nat) :
    (List.replicate k (['.', '.'] : Str)).foldl (cleanStep false)
        (List.replicate j ['.', '.']) =
      List.replicate (k + j) ['.', '.'] := by
  induction k generalizing j with
  | zero => simp
  | succ m ih =>
    rw [List.replicate_succ, List.foldl_cons]
    have hstep : cleanStep false (List.replicate j (['.', '.'] : Str)) ['.', '.'] =
        List.replicate (j + 1) ['.', '.'] := by
      cases j with
      | zero => rfl
      | succ i =>
        rw [List.replicate_succ, cleanStep_dots_top, ← List.replicate_succ,
          ← List.replicate_succ]
    rw [hstep, ih (j + 1)]
    congr 1
    omega

theorem foldl_inv (comps : List Str)
    (hc : ∀ c ∈ comps, c ≠ [] ∧ '/' ∉ c ∧ c ≠ ['.']) :
    ∀ norm dots : List Str,
      (∀ c ∈ norm, (c ≠ [] ∧ '/' ∉ c ∧ c ≠ ['.']) ∧ c ≠ ['.', '.']) →
      (∀ c ∈ dots, c = ['.', '.']) →
      ∃ norm' dots', comps.foldl (cleanStep false) (norm ++ dots) = norm' ++ dots' ∧
        (∀ c ∈ norm', (c ≠ [] ∧ '/' ∉ c ∧ c ≠ ['.']) ∧ c ≠ ['.', '.']) ∧
        (∀ c ∈ dots', c = ['.', '.']) := by
  induction comps with
  | nil => exact fun norm dots h2 h3 => ⟨norm, dots, rfl, h2, h3⟩
  | cons c rest ih =>
    intro norm dots h2 h3
    have hcrest : ∀ x ∈ rest, x ≠ [] ∧ '/' ∉ x ∧ x ≠ ['.'] :=
      fun x hx => hc x (List.mem_cons.mpr (Or.inr hx))
    have hchead := hc c (List.mem_cons_self c rest)
    rw [List.foldl_cons]
    by_cases hdd : c = ['.', '.']
    · subst hdd
      cases norm with
      | nil =>
        cases dots with
        | nil =>
          rw [List.nil_append, cleanStep_dots_nil]
          have := ih hcrest [] [['.', '.']] (by intro x hx; simp at hx)
            (by intro x hx; simpa using hx)
          simpa using this
        | cons d dt =>
          have hd : d = ['.', '.'] := h3 d (List.mem_cons_self d dt)
          subst hd
          rw [List.nil_append, cleanStep_dots_top]
          have := ih hcrest [] (['.', '.'] :: ['.', '.'] :: dt)
            (by intro x hx; simp at hx)
            (by intro x hx
                rcases List.mem_cons.mp hx with rfl | hx2
                · rfl
                · rcases List.mem_cons.mp hx2 with rfl | hx3
                  · rfl
                  · exact h3 x (List.mem_cons.mpr (Or.inr hx3)))
          simpa using this
      | cons n0 nt =>
        rw [List.cons_append,
          cleanStep_pop false n0 (nt ++ dots) (h2 n0 (List.mem_cons_self n0 nt)).2]
        exact ih hcrest nt dots (fun x hx => h2 x (List.mem_cons.mpr (Or.inr hx))) h3
    · rw [cleanStep_push false (norm ++ dots) c hdd, ← List.cons_append]
      exact ih hcrest (c :: norm) dots
        (by intro x hx
            rcases List.mem_cons.mp hx with rfl | hx2
            · exact ⟨hchead, hdd⟩
            · exact h2 x hx2) h3

theorem foldl_inv_rooted (comps : List Str)
    (hc : ∀ c ∈ comps, c ≠ [] ∧ '/' ∉ c ∧ c ≠ ['.']) :
    ∀ st : List Str,
      (∀ c ∈ st, (c ≠ [] ∧ '/' ∉ c ∧ c ≠ ['.']) ∧ c ≠ ['.', '.']) →
      ∀ c ∈ comps.foldl (cleanStep true) st,
        (c ≠ [] ∧ '/' ∉ c ∧ c ≠ ['.']) ∧ c ≠ ['.', '.'] := by
  induction comps with
  | nil => exact fun st h2 => h2
  | cons c rest ih =>
    intro st h2
    have hcrest : ∀ x ∈ rest, x ≠ [] ∧ '/' ∉ x ∧ x ≠ ['.'] :=
      fun x hx => hc x (List.mem_cons.mpr (Or.inr hx))
    rw [List.foldl_cons]
    by_cases hdd : c = ['.', '.']
    · subst hdd
      cases st with
      | nil =>
        rw [cleanStep_rooted_nil]
        exact ih hcrest [] (by intro x hx; simp at hx)
      | cons n0 nt =>
        rw [cleanStep_pop true n0 nt (h2 n0 (List.mem_cons_self n0 nt)).2]
        exact ih hcrest nt (fun x hx => h2 x (List.mem_cons.mpr (Or.inr hx)))
    · have hchead := hc c (List.mem_cons_self c rest)
      rw [cleanStep_push true st c hdd]
      refine ih hcrest (c :: st) ?_
      intro x hx
      rcases List.mem_cons.mp hx with rfl | hx2
      · exact ⟨hchead, hdd⟩
      · exact h2 x hx2

theorem pathClean_eq_core (p : Str) (hp : p ≠ []) : pathClean p = pathCleanCore p := by
  rw [pathClean, if_neg hp]
  rfl

theorem refold_nonrooted (norm dots : List Str)
    (hn : ∀ c ∈ norm, c ≠ ['.', '.'])
    (hd : ∀ c ∈ dots, c = ['.', '.']) :
    ((norm ++ dots).reverse).foldl (cleanStep false) [] = norm ++ dots := by
  have hdrep : dots = List.replicate dots.length ['.', '.'] :=
    List.eq_replicate_of_mem hd
  rw [List.reverse_append, List.foldl_append]
  have h1 : (dots.reverse).foldl (cleanStep false) [] = dots := by
    conv_lhs => rw [hdrep, List.reverse_replicate]
    rw [show ([] : List Str) = List.replicate 0 ['.', '.'] from rfl, foldl_dots,
      Nat.add_zero, ← hdrep]
  rw [h1, foldl_nondots false norm.reverse dots
    (fun c hc => hn c (List.mem_reverse.mp hc)), List.reverse_reverse]

theorem refold_rooted (acc : List Str) (hn : ∀ c ∈ acc, c ≠ ['.', '.']) :
    (acc.reverse).foldl (cleanStep true) [] = acc := by
  rw [foldl_nondots true acc.reverse []
    (fun c hc => hn c (List.mem_reverse.mp hc)), List.reverse_reverse, List.append_nil]

theorem flatten_head_ne_slash (cs : List Str) (h0 : cs ≠ [])
    (h : ∀ c ∈ cs, c ≠ [] ∧ '/' ∉ c) :
    ¬ ((List.intersperse ['/'] cs).flatten.head? = some '/') := by
  cases cs with
  | nil => exact absurd rfl h0
  | cons c rest =>
    have hc := h c (List.mem_cons_self c rest)
    cases hcc : c with
    | nil => exact absurd hcc hc.1
    | cons ch ct =>
      have hch : ch ≠ '/' := by
        intro hh
        exact hc.2 (hcc ▸ hh ▸ List.mem_cons_self ch ct)
      cases rest with
      | nil =>
        simp only [List.intersperse_single, List.flatten, List.append_nil, hcc]
        simp [hch]
      | cons d t =>
        subst hcc
        have hfl : (List.intersperse ['/'] ((ch :: ct) :: d :: t)).flatten =
            (ch :: ct) ++ '/' :: (List.intersperse ['/'] (d :: t)).flatten := by
          simp [List.intersperse]
        rw [hfl]
        simp [hch]

theorem splitComps_slash_cons (x : Str) : splitComps ('/' :: x) = [] :: splitComps x := by
  rw [splitComps]
  cases h : splitComps x with
  | nil => exact absurd h (splitComps_ne_nil x)
  | cons a t => simp

theorem filter_keep (l : List Str) (h : ∀ c ∈ l, c ≠ [] ∧ c ≠ ['.']) :
    l.filter (fun c => c ≠ [] ∧ c ≠ ['.']) = l := by
  apply List.filter_eq_self.mpr
  intro a ha
  simpa using h a ha

theorem core_rooted (p : Str) (hroot : p.head? = some '/') :
    pathCleanCore p = '/' ::
      (List.intersperse ['/']
        ((((splitComps p).filter (fun c => c ≠ [] ∧ c ≠ ['.'])).foldl
          (cleanStep true) []).reverse)).flatten := by
  simp [pathCleanCore, hroot]

theorem core_nonrooted (p : Str) (hroot : ¬(p.head? = some '/')) :
    pathCleanCore p =
      (if ((List.intersperse ['/']
          ((((splitComps p).filter (fun c => c ≠ [] ∧ c ≠ ['.'])).foldl
            (cleanStep false) []).reverse)).flatten) = []
       then ['.']
       else (List.intersperse ['/']
          ((((splitComps p).filter (fun c => c ≠ [] ∧ c ≠ ['.'])).foldl
            (cleanStep false) []).reverse)).flatten) := by
  simp [pathCleanCore, hroot]

theorem pathClean_idem (p : Str) : pathClean (pathClean p) = pathClean p := by
  by_cases hp : p = []
  · subst hp
    rfl
  · rw [pathClean_eq_core p hp]
    have hcomps : ∀ c ∈ (splitComps p).filter (fun c => c ≠ [] ∧ c ≠ ['.']),
        c ≠ [] ∧ '/' ∉ c ∧ c ≠ ['.'] := by
      intro c hc
      have hm := List.mem_filter.mp hc
      have hpred := of_decide_eq_true hm.2
      exact ⟨hpred.1, splitComps_no_slash p c hm.1, hpred.2⟩
    by_cases hroot : p.head? = some '/'
    · rw [core_rooted p hroot]
      have hacc := foldl_inv_rooted _ hcomps [] (by intro x hx; simp at hx)
      cases hA : ((splitComps p).filter (fun c => c ≠ [] ∧ c ≠ ['.'])).foldl
          (cleanStep true) [] with
      | nil => decide
      | cons a as =>
        rw [hA] at hacc
        have hgood : ∀ c ∈ (a :: as).reverse, c ≠ [] ∧ '/' ∉ c :=
          fun c hc => ⟨(hacc c (List.mem_reverse.mp hc)).1.1,
            (hacc c (List.mem_reverse.mp hc)).1.2.1⟩
        have hArev_ne : (a :: as).reverse ≠ [] := by simp
        have hq : ('/' :: (List.intersperse ['/'] (a :: as).reverse).flatten) ≠ [] :=
          List.cons_ne_nil _ _
        have hinner : ((splitComps
              ('/' :: (List.intersperse ['/'] (a :: as).reverse).flatten)).filter
            (fun c => c ≠ [] ∧ c ≠ ['.'])).foldl (cleanStep true) [] = a :: as := by
          rw [splitComps_slash_cons, List.filter_cons, if_neg (by simp),
            splitComps_flatten _ hArev_ne hgood,
            filter_keep _ (fun c hc => ⟨(hacc c (List.mem_reverse.mp hc)).1.1,
              (hacc c (List.mem_reverse.mp hc)).1.2.2⟩)]
          exact refold_rooted (a :: as) (fun c hc => (hacc c hc).2)
        rw [pathClean_eq_core _ hq,
          core_rooted ('/' :: (List.intersperse ['/'] (a :: as).reverse).flatten) rfl,
          hinner]
    · rw [core_nonrooted p hroot]
      obtain ⟨norm, dots, hsplit, hnorm, hdots⟩ :=
        foldl_inv _ hcomps [] [] (by intro x hx; simp at hx) (by intro x hx; simp at hx)
      rw [List.nil_append] at hsplit
      by_cases hJ : ((List.intersperse ['/']
          ((((splitComps p).filter (fun c => c ≠ [] ∧ c ≠ ['.'])).foldl
            (cleanStep false) []).reverse)).flatten) = []
      · rw [if_pos hJ]
        decide
      · rw [if_neg hJ]
        have hAne : (((splitComps p).filter (fun c => c ≠ [] ∧ c ≠ ['.'])).foldl
            (cleanStep false) []) ≠ [] := by
          intro h0
          apply hJ
          rw [h0]
          rfl
        have hgoodA : ∀ c ∈ (((splitComps p).filter (fun c => c ≠ [] ∧ c ≠ ['.'])).foldl
            (cleanStep false) []), c ≠ [] ∧ '/' ∉ c ∧ c ≠ ['.'] := by
          intro c hc
          rw [hsplit] at hc
          rcases List.mem_append.mp hc with hcn | hcd
          · exact (hnorm c hcn).1
          · rw [hdots c hcd]
            refine ⟨by simp, by simp, by simp⟩
        have hArev_ne : (((splitComps p).filter (fun c => c ≠ [] ∧ c ≠ ['.'])).foldl
            (cleanStep false) []).reverse ≠ [] := by simpa using hAne
        have hhead := flatten_head_ne_slash _ hArev_ne
          (fun c hc => ⟨(hgoodA c (List.mem_reverse.mp hc)).1,
            (hgoodA c (List.mem_reverse.mp hc)).2.1⟩)
        rw [pathClean_eq_core _ hJ, core_nonrooted _ hhead]
        have hAA : ((splitComps ((List.intersperse ['/']
            ((((splitComps p).filter (fun c => c ≠ [] ∧ c ≠ ['.'])).foldl
              (cleanStep false) []).reverse)).flatten)).filter
                (fun c => c ≠ [] ∧ c ≠ ['.'])).foldl (cleanStep false) [] =
            (((splitComps p).filter (fun c => c ≠ [] ∧ c ≠ ['.'])).foldl
              (cleanStep false) []) := by
          rw [splitComps_flatten _ hArev_ne
            (fun c hc => ⟨(hgoodA c (List.mem_reverse.mp hc)).1,
              (hgoodA c (List.mem_reverse.mp hc)).2.1⟩),
            filter_keep _ (fun c hc => ⟨(hgoodA c (List.mem_reverse.mp hc)).1,
              (hgoodA c (List.mem_reverse.mp hc)).2.2⟩)]
          rw [hsplit]
          exact refold_nonrooted norm dots (fun c hc => (hnorm c hc).2) hdots
        rw [hAA, if_neg hJ]

theorem pathClean_pathDir (p : Str) : pathClean (pathDir p) = pathDir p := by
  rw [pathDir]
  exact pathClean_idem _

/-- C5: the path classifier is built from the `main` package's file path
(which enumeration sets to the directory of the `main` source file), whose
absence is the hard no-main-package error; its "main folders" are
`path.Dir(fp)` and `path.Clean(fp)` — for an enumeration-derived `fp` these
are the grandparent and the directory of the main source file; a package
whose file path's parent directory equals one of the main folders, and which
matches none of the earlier rules, is classified Main. -/
theorem pathClassifier_main_construction (std : Str → Bool) :
    (∀ fp, (newPathPackageClassifier fp).mainFolders = [pathDir fp, pathClean fp]) ∧
    (∀ sf, sf ≠ "<autogenerated>".data → sf ≠ [] →
      (newPathPackageClassifier (mkFilepath sf)).mainFolders =
        [pathDir (pathDir sf), pathDir sf]) ∧
    (∀ pcToLine funcs, (∀ n ∈ funcs, n.packageName ≠ "main".data) →
      enumPackages std none pcToLine funcs = .error errNoMainPackage) ∧
    (∀ c pkg,
      (pkg.name == "type".data || strHasPre pkg.name "type..".data) = false →
      isStandardLibrary std pkg.name = false →
      isGeneratedPackage pkg = false →
      ((strBefore pkg.name "/golang.org".data).length < pkg.name.length &&
        isStandardLibrary std (strBefore pkg.name "/golang.org".data)) = false →
      (strHasPre pkg.name "_cgo_".data || strHasPre pkg.name "x_cgo_".data) = false →
      strContains pkg.filepath "@v".data = false →
      (strHasPre pkg.filepath (c.mainFilepath ++ "/vendor/".data) ||
        strHasPre pkg.filepath (pathDir c.mainFilepath ++ "/vendor/".data) ||
        strHasPre pkg.filepath (pathDir (pathDir c.mainFilepath) ++ "/vendor/".data)) = false →
      c.mainFolders.any (fun folder => pathDir pkg.filepath == folder) = true →
      classifyPath std c pkg = .main) := by
  refine ⟨fun fp => rfl, fun sf h1 h2 => ?_, fun pcToLine funcs hno => ?_,
    fun c pkg h1 h2 h3 h4 h5 h6 h7 h8 => ?_⟩
  · rw [mkFilepath, if_neg (by simp [h1, h2]), newPathPackageClassifier,
      pathClean_pathDir sf]
  · have hnone : aLookup (enumFold pcToLine funcs) "main".data = none :=
      enumFoldFrom_none pcToLine funcs _ [] rfl
        (List.find?_eq_none.mpr (fun n hn => by simp [hno n hn]))
    simp only [enumPackages, hnone]
  · simp only [classifyPath, h1, h2, h3, h4, h5, h6, h7, h8, Bool.false_eq_true,
      if_false, if_true]

/-- Witness for the C5 theorem: `main` source `/home/u/proj/cmd/main.go`, a
no-main symbol list, and the main package itself being classified Main via
the main-folders rule. -/
theorem pathClassifier_main_construction_witness :
    (newPathPackageClassifier (mkFilepath "/home/u/proj/cmd/main.go".data)).mainFolders =
      [pathDir (pathDir "/home/u/proj/cmd/main.go".data),
       pathDir "/home/u/proj/cmd/main.go".data] ∧
    enumPackages stdNone none witPcl [⟨"x".data, [], "f".data, 1, 2⟩] =
      .error errNoMainPackage ∧
    classifyPath stdNone (newPathPackageClassifier "/home/u/proj/cmd".data)
      ⟨"main".data, "/home/u/proj/cmd".data, [], []⟩ = .main := by
  refine ⟨(pathClassifier_main_construction stdNone).2.1 _ (by decide) (by decide),
    (pathClassifier_main_construction stdNone).2.2.1 witPcl _ (by decide),
    (pathClassifier_main_construction stdNone).2.2.2 _ _ (by decide) (by decide) (by decide)
      (by decide) (by decide) (by decide) (by decide) (by decide)⟩

/-- Witness for the amended C8 theorem: a 3-byte file and a 4-byte file with
an unknown prefix. -/
theorem goOpen_short_and_unknown_magic_witness :
    goOpen none none none [1, 2, 3] = .error errNotEnoughBytesRead ∧
    goOpen none none none [9, 9, 9, 9] = .error errUnsupportedFile := by
  refine ⟨(goOpen_short_and_unknown_magic none none none [1, 2, 3]).2.1 (by decide) (by decide),
    (goOpen_short_and_unknown_magic none none none [9, 9, 9, 9]).2.2 (by decide) (by decide)
      (by decide) (by decide) (by decide) (by decide) (by decide)⟩

/-! ### One-shot gate lemmas for the `GoFile` state model -/

/-- A fired moduledata gate is a pure read. -/
theorem initMD_settled (env : GFEnv) (s : GFState) (h : s.mdDone = true) :
    GoFile.initModuleData env s = (s.mdErr, s) := by
  rw [GoFile.initModuleData, if_pos h]

/-- The moduledata gate is fired after any call. -/
theorem initMD_mdDone (env : GFEnv) (s : GFState) :
    ((GoFile.initModuleData env s).2).mdDone = true := by
  by_cases h : s.mdDone = true
  · rw [initMD_settled env s h]; exact h
  · rw [GoFile.initModuleData, if_neg h]
    cases hE : env.extractMD <;> rfl

/-- `initModuleData` returns exactly the stored sticky error. -/
theorem initMD_err_eq (env : GFEnv) (s : GFState) :
    (GoFile.initModuleData env s).1 = ((GoFile.initModuleData env s).2).mdErr := by
  by_cases h : s.mdDone = true
  · rw [initMD_settled env s h]
  · rw [GoFile.initModuleData, if_neg h]
    cases hE : env.extractMD <;> rfl

/-- `initModuleData` touches only the moduledata gate fields. -/
theorem initMD_frame (env : GFEnv) (s : GFState) :
    ((GoFile.initModuleData env s).2).pclnDone = s.pclnDone ∧
    ((GoFile.initModuleData env s).2).pclnRes = s.pclnRes ∧
    ((GoFile.initModuleData env s).2).pkgDone = s.pkgDone ∧
    ((GoFile.initModuleData env s).2).pkgErr = s.pkgErr ∧
    ((GoFile.initModuleData env s).2).pclntab = s.pclntab ∧
    ((GoFile.initModuleData env s).2).lists = s.lists ∧
    ((GoFile.initModuleData env s).2).searchCount = s.searchCount ∧
    ((GoFile.initModuleData env s).2).enumCount = s.enumCount := by
  by_cases h : s.mdDone = true
  · rw [initMD_settled env s h]
    exact ⟨rfl, rfl, rfl, rfl, rfl, rfl, rfl, rfl⟩
  · rw [GoFile.initModuleData, if_neg h]
    cases hE : env.extractMD <;> exact ⟨rfl, rfl, rfl, rfl, rfl, rfl, rfl, rfl⟩

/-- The extraction runs exactly once when the gate had not fired. -/
theorem initMD_mdCount_fresh (env : GFEnv) (s : GFState) (h : s.mdDone = false) :
    ((GoFile.initModuleData env s).2).mdCount = s.mdCount + 1 := by
  rw [GoFile.initModuleData, if_neg (by simp [h])]
  cases hE : env.extractMD <;> rfl

/-- The extraction count grows by at most one per call. -/
theorem initMD_mdCount_le (env : GFEnv) (s : GFState) :
    ((GoFile.initModuleData env s).2).mdCount ≤ s.mdCount + 1 := by
  by_cases h : s.mdDone = true
  · rw [initMD_settled env s h]; exact Nat.le_succ _
  · rw [initMD_mdCount_fresh env s (by simpa using h)]

/-- A fired PCLNTAB-data gate is a pure read. -/
theorem gpd_settled (env : GFEnv) (s : GFState) (h : s.pclnDone = true) :
    GoFile.getPCLNTABData env s = (s.pclnRes, s) := by
  rw [GoFile.getPCLNTABData, if_pos h]

/-- The PCLNTAB-data gate is fired after any call. -/
theorem gpd_pclnDone (env : GFEnv) (s : GFState) :
    ((GoFile.getPCLNTABData env s).2).pclnDone = true := by
  by_cases h : s.pclnDone = true
  · rw [gpd_settled env s h]; exact h
  · rw [GoFile.getPCLNTABData, if_neg h]

/-- `getPCLNTABData` returns exactly the stored sticky result. -/
theorem gpd_res_eq (env : GFEnv) (s : GFState) :
    (GoFile.getPCLNTABData env s).1 = ((GoFile.getPCLNTABData env s).2).pclnRes := by
  by_cases h : s.pclnDone = true
  · rw [gpd_settled env s h]
  · rw [GoFile.getPCLNTABData, if_neg h]

/-- `getPCLNTABData` touches only the PCLNTAB gate fields. -/
theorem gpd_frame (env : GFEnv) (s : GFState) :
    ((GoFile.getPCLNTABData env s).2).mdDone = s.mdDone ∧
    ((GoFile.getPCLNTABData env s).2).mdErr = s.mdErr ∧
    ((GoFile.getPCLNTABData env s).2).md = s.md ∧
    ((GoFile.getPCLNTABData env s).2).pkgDone = s.pkgDone ∧
    ((GoFile.getPCLNTABData env s).2).pkgErr = s.pkgErr ∧
    ((GoFile.getPCLNTABData env s).2).pclntab = s.pclntab ∧
    ((GoFile.getPCLNTABData env s).2).lists = s.lists ∧
    ((GoFile.getPCLNTABData env s).2).mdCount = s.mdCount ∧
    ((GoFile.getPCLNTABData env s).2).enumCount = s.enumCount := by
  by_cases h : s.pclnDone = true
  · rw [gpd_settled env s h]
    exact ⟨rfl, rfl, rfl, rfl, rfl, rfl, rfl, rfl, rfl⟩
  · rw [GoFile.getPCLNTABData, if_neg h]
    exact ⟨rfl, rfl, rfl, rfl, rfl, rfl, rfl, rfl, rfl⟩

/-- The search runs exactly once when the gate had not fired. -/
theorem gpd_searchCount_fresh (env : GFEnv) (s : GFState) (h : s.pclnDone = false) :
    ((GoFile.getPCLNTABData env s).2).searchCount = s.searchCount + 1 := by
  rw [GoFile.getPCLNTABData, if_neg (by simp [h])]

/-- The search count grows by at most one per call. -/
theorem gpd_searchCount_le (env : GFEnv) (s : GFState) :
    ((GoFile.getPCLNTABData env s).2).searchCount ≤ s.searchCount + 1 := by
  by_cases h : s.pclnDone = true
  · rw [gpd_settled env s h]; exact Nat.le_succ _
  · rw [gpd_searchCount_fresh env s (by simpa using h)]

/-- The result `PCLNTab` reports is determined by its post-state: the sticky
moduledata error if any, else the sticky search result turned into a table
with the cached text address. -/
theorem pt_result_char (env : GFEnv) (s : GFState) :
    (GoFile.pclnTabOp env s).1 =
      (match ((GoFile.pclnTabOp env s).2).mdErr with
        | some e => Except.error e
        | none =>
          match ((GoFile.pclnTabOp env s).2).pclnRes with
          | .error e => .error e
          | .ok (_, d) => .ok ⟨((GoFile.pclnTabOp env s).2).md.textAddr, d⟩) := by
  rcases hMD : GoFile.initModuleData env s with ⟨oe, s'⟩
  have herr := initMD_err_eq env s
  rw [hMD] at herr
  cases oe with
  | some e =>
    simp only [GoFile.pclnTabOp, hMD]
    rw [← herr]
  | none =>
    rcases hPD : GoFile.getPCLNTABData env s' with ⟨r, s''⟩
    have hres := gpd_res_eq env s'
    rw [hPD] at hres
    have hfr := gpd_frame env s'
    rw [hPD] at hfr
    obtain ⟨g1, g2, g3, -, -, -, -, -, -⟩ := hfr
    cases r with
    | error e =>
      simp only [GoFile.pclnTabOp, hMD, hPD]
      rw [g2, ← herr, ← hres]
    | ok p =>
      obtain ⟨a, d⟩ := p
      simp only [GoFile.pclnTabOp, hMD, hPD]
      rw [g2, ← herr, ← hres]

/-- After any `PCLNTab` call the moduledata gate is fired and, unless
moduledata failed, the PCLNTAB-data gate is fired too. -/
theorem pt_post (env : GFEnv) (s : GFState) :
    ((GoFile.pclnTabOp env s).2).mdDone = true ∧
    (((GoFile.pclnTabOp env s).2).mdErr = none →
      ((GoFile.pclnTabOp env s).2).pclnDone = true) := by
  rcases hMD : GoFile.initModuleData env s with ⟨oe, s'⟩
  have hdone := initMD_mdDone env s
  rw [hMD] at hdone
  have herr := initMD_err_eq env s
  rw [hMD] at herr
  cases oe with
  | some e =>
    simp only [GoFile.pclnTabOp, hMD]
    refine ⟨hdone, fun hnone => ?_⟩
    rw [hnone] at herr
    cases herr
  | none =>
    rcases hPD : GoFile.getPCLNTABData env s' with ⟨r, s''⟩
    have hpd := gpd_pclnDone env s'
    rw [hPD] at hpd
    have hfr := gpd_frame env s'
    rw [hPD] at hfr
    obtain ⟨g1, -, -, -, -, -, -, -, -⟩ := hfr
    cases r with
    | error e =>
      simp only [GoFile.pclnTabOp, hMD, hPD]
      exact ⟨g1.trans hdone, fun _ => hpd⟩
    | ok p =>
      obtain ⟨a, d⟩ := p
      simp only [GoFile.pclnTabOp, hMD, hPD]
      exact ⟨g1.trans hdone, fun _ => hpd⟩

/-- On a state whose gates are already fired, `PCLNTab` is a pure read. -/
theorem pt_stable (env : GFEnv) (s : GFState) (h1 : s.mdDone = true)
    (h2 : s.mdErr = none → s.pclnDone = true) :
    (GoFile.pclnTabOp env s).2 = s := by
  rw [GoFile.pclnTabOp, initMD_settled env s h1]
  cases hE : s.mdErr with
  | some e => rfl
  | none =>
    dsimp only
    rw [gpd_settled env s (h2 hE)]
    cases hR : s.pclnRes with
    | error e => rfl
    | ok p => obtain ⟨a, d⟩ := p; rfl

/-- `PCLNTab` touches only the two gates it runs. -/
theorem pt_frame (env : GFEnv) (s : GFState) :
    ((GoFile.pclnTabOp env s).2).pkgDone = s.pkgDone ∧
    ((GoFile.pclnTabOp env s).2).pkgErr = s.pkgErr ∧
    ((GoFile.pclnTabOp env s).2).pclntab = s.pclntab ∧
    ((GoFile.pclnTabOp env s).2).lists = s.lists ∧
    ((GoFile.pclnTabOp env s).2).enumCount = s.enumCount := by
  rcases hMD : GoFile.initModuleData env s with ⟨oe, s'⟩
  have hfr := initMD_frame env s
  rw [hMD] at hfr
  obtain ⟨-, -, f3, f4, f5, f6, -, f8⟩ := hfr
  cases oe with
  | some e =>
    simp only [GoFile.pclnTabOp, hMD]
    exact ⟨f3, f4, f5, f6, f8⟩
  | none =>
    rcases hPD : GoFile.getPCLNTABData env s' with ⟨r, s''⟩
    have hfr2 := gpd_frame env s'
    rw [hPD] at hfr2
    obtain ⟨-, -, -, g4, g5, g6, g7, -, g9⟩ := hfr2
    cases r with
    | error e =>
      simp only [GoFile.pclnTabOp, hMD, hPD]
      exact ⟨g4.trans f3, g5.trans f4, g6.trans f5, g7.trans f6, g9.trans f8⟩
    | ok p =>
      obtain ⟨a, d⟩ := p
      simp only [GoFile.pclnTabOp, hMD, hPD]
      exact ⟨g4.trans f3, g5.trans f4, g6.trans f5, g7.trans f6, g9.trans f8⟩

/-- The moduledata extraction runs exactly once on a fresh gate, through
`PCLNTab`. -/
theorem pt_mdCount_fresh (env : GFEnv) (s : GFState) (h : s.mdDone = false) :
    ((GoFile.pclnTabOp env s).2).mdCount = s.mdCount + 1 := by
  rcases hMD : GoFile.initModuleData env s with ⟨oe, s'⟩
  have hct := initMD_mdCount_fresh env s h
  rw [hMD] at hct
  cases oe with
  | some e => simp only [GoFile.pclnTabOp, hMD]; exact hct
  | none =>
    rcases hPD : GoFile.getPCLNTABData env s' with ⟨r, s''⟩
    have hfr2 := gpd_frame env s'
    rw [hPD] at hfr2
    obtain ⟨-, -, -, -, -, -, -, g8, -⟩ := hfr2
    cases r with
    | error e => simp only [GoFile.pclnTabOp, hMD, hPD]; exact g8.trans hct
    | ok p =>
      obtain ⟨a, d⟩ := p
      simp only [GoFile.pclnTabOp, hMD, hPD]
      exact g8.trans hct

/-- The search count grows by at most one per `PCLNTab` call. -/
theorem pt_searchCount_le (env : GFEnv) (s : GFState) :
    ((GoFile.pclnTabOp env s).2).searchCount ≤ s.searchCount + 1 := by
  rcases hMD : GoFile.initModuleData env s with ⟨oe, s'⟩
  have hfr := initMD_frame env s
  rw [hMD] at hfr
  obtain ⟨-, -, -, -, -, -, f7, -⟩ := hfr
  cases oe with
  | some e => simp only [GoFile.pclnTabOp, hMD]; rw [f7]; exact Nat.le_succ _
  | none =>
    rcases hPD : GoFile.getPCLNTABData env s' with ⟨r, s''⟩
    have hle := gpd_searchCount_le env s'
    rw [hPD] at hle
    rw [f7] at hle
    cases r with
    | error e => simp only [GoFile.pclnTabOp, hMD, hPD]; exact hle
    | ok p =>
      obtain ⟨a, d⟩ := p
      simp only [GoFile.pclnTabOp, hMD, hPD]
      exact hle

/-- The extraction count grows by at most one per `PCLNTab` call. -/
theorem pt_mdCount_le (env : GFEnv) (s : GFState) :
    ((GoFile.pclnTabOp env s).2).mdCount ≤ s.mdCount + 1 := by
  rcases hMD : GoFile.initModuleData env s with ⟨oe, s'⟩
  have hle := initMD_mdCount_le env s
  rw [hMD] at hle
  cases oe with
  | some e => simp only [GoFile.pclnTabOp, hMD]; exact hle
  | none =>
    rcases hPD : GoFile.getPCLNTABData env s' with ⟨r, s''⟩
    have hfr2 := gpd_frame env s'
    rw [hPD] at hfr2
    obtain ⟨-, -, -, -, -, -, -, g8, -⟩ := hfr2
    cases r with
    | error e => simp only [GoFile.pclnTabOp, hMD, hPD]; rw [g8]; exact hle
    | ok p =>
      obtain ⟨a, d⟩ := p
      simp only [GoFile.pclnTabOp, hMD, hPD]
      rw [g8]; exact hle

/-- A fired packages gate is a pure read. -/
theorem ip_settled (env : GFEnv) (s : GFState) (h : s.pkgDone = true) :
    GoFile.initPackages env s = (s.pkgErr, s) := by
  rw [GoFile.initPackages, if_pos h]

/-- The packages gate is fired after any call. -/
theorem ip_pkgDone (env : GFEnv) (s : GFState) :
    ((GoFile.initPackages env s).2).pkgDone = true := by
  by_cases h : s.pkgDone = true
  · rw [ip_settled env s h]; exact h
  · rcases hT : GoFile.pclnTabOp env s with ⟨r, s'⟩
    cases r with
    | error e => simp only [GoFile.initPackages, if_neg h, hT]
    | ok tab =>
      cases hE : env.enumOutcome with
      | error e => simp only [GoFile.initPackages, if_neg h, hT, hE]
      | ok L => simp only [GoFile.initPackages, if_neg h, hT, hE]

/-- `initPackages` returns exactly the stored sticky error. -/
theorem ip_err_eq (env : GFEnv) (s : GFState) :
    (GoFile.initPackages env s).1 = ((GoFile.initPackages env s).2).pkgErr := by
  by_cases h : s.pkgDone = true
  · rw [ip_settled env s h]
  · rcases hT : GoFile.pclnTabOp env s with ⟨r, s'⟩
    cases r with
    | error e => simp only [GoFile.initPackages, if_neg h, hT]
    | ok tab =>
      cases hE : env.enumOutcome with
      | error e => simp only [GoFile.initPackages, if_neg h, hT, hE]
      | ok L => simp only [GoFile.initPackages, if_neg h, hT, hE]

/-- The enumeration count grows by at most one per call. -/
theorem ip_enumCount_le (env : GFEnv) (s : GFState) :
    ((GoFile.initPackages env s).2).enumCount ≤ s.enumCount + 1 := by
  by_cases h : s.pkgDone = true
  · rw [ip_settled env s h]; exact Nat.le_succ _
  · rcases hT : GoFile.pclnTabOp env s with ⟨r, s'⟩
    have hfr := pt_frame env s
    rw [hT] at hfr
    obtain ⟨-, -, -, -, f5⟩ := hfr
    cases r with
    | error e =>
      simp only [GoFile.initPackages, if_neg h, hT]
      rw [f5]; exact Nat.le_succ _
    | ok tab =>
      cases hE : env.enumOutcome with
      | error e =>
        simp only [GoFile.initPackages, if_neg h, hT, hE]
        rw [f5]
      | ok L =>
        simp only [GoFile.initPackages, if_neg h, hT, hE]
        rw [f5]

/-- A first call that succeeds ran the enumeration exactly once. -/
theorem ip_enumCount_of_none (env : GFEnv) (s : GFState) (h : s.pkgDone = false)
    (hr : (GoFile.initPackages env s).1 = none) :
    ((GoFile.initPackages env s).2).enumCount = s.enumCount + 1 := by
  have h' : ¬ s.pkgDone = true := by simp [h]
  rcases hT : GoFile.pclnTabOp env s with ⟨r, s'⟩
  have hfr := pt_frame env s
  rw [hT] at hfr
  obtain ⟨-, -, -, -, f5⟩ := hfr
  cases r with
  | error e =>
    rw [GoFile.initPackages, if_neg h'] at hr ⊢
    simp only [hT] at hr
    cases hr
  | ok tab =>
    cases hE : env.enumOutcome with
    | error e =>
      rw [GoFile.initPackages, if_neg h'] at hr
      simp only [hT, hE] at hr
      cases hr
    | ok L =>
      simp only [GoFile.initPackages, if_neg h', hT, hE]
      rw [f5]

/-- A first call that succeeds cached the table. -/
theorem ip_pclntab_of_none (env : GFEnv) (s : GFState) (h : s.pkgDone = false)
    (hr : (GoFile.initPackages env s).1 = none) :
    ∃ t, ((GoFile.initPackages env s).2).pclntab = some t := by
  have h' : ¬ s.pkgDone = true := by simp [h]
  rcases hT : GoFile.pclnTabOp env s with ⟨r, s'⟩
  cases r with
  | error e =>
    rw [GoFile.initPackages, if_neg h'] at hr
    simp only [hT] at hr
    cases hr
  | ok tab =>
    cases hE : env.enumOutcome with
    | error e =>
      rw [GoFile.initPackages, if_neg h'] at hr
      simp only [hT, hE] at hr
      cases hr
    | ok L =>
      simp only [GoFile.initPackages, if_neg h', hT, hE]
      exact ⟨tab, rfl⟩

/-- The extraction count grows by at most one per `initPackages` call. -/
theorem ip_mdCount_le (env : GFEnv) (s : GFState) :
    ((GoFile.initPackages env s).2).mdCount ≤ s.mdCount + 1 := by
  by_cases h : s.pkgDone = true
  · rw [ip_settled env s h]; exact Nat.le_succ _
  · rcases hT : GoFile.pclnTabOp env s with ⟨r, s'⟩
    have hle := pt_mdCount_le env s
    rw [hT] at hle
    cases r with
    | error e => simp only [GoFile.initPackages, if_neg h, hT]; exact hle
    | ok tab =>
      cases hE : env.enumOutcome with
      | error e => simp only [GoFile.initPackages, if_neg h, hT, hE]; exact hle
      | ok L => simp only [GoFile.initPackages, if_neg h, hT, hE]; exact hle

/-- The search count grows by at most one per `initPackages` call. -/
theorem ip_searchCount_le (env : GFEnv) (s : GFState) :
    ((GoFile.initPackages env s).2).searchCount ≤ s.searchCount + 1 := by
  by_cases h : s.pkgDone = true
  · rw [ip_settled env s h]; exact Nat.le_succ _
  · rcases hT : GoFile.pclnTabOp env s with ⟨r, s'⟩
    have hle := pt_searchCount_le env s
    rw [hT] at hle
    cases r with
    | error e => simp only [GoFile.initPackages, if_neg h, hT]; exact hle
    | ok tab =>
      cases hE : env.enumOutcome with
      | error e => simp only [GoFile.initPackages, if_neg h, hT, hE]; exact hle
      | ok L => simp only [GoFile.initPackages, if_neg h, hT, hE]; exact hle

/-- `GetPackages` leaves exactly the `initPackages` post-state. -/
theorem gp_state_eq (env : GFEnv) (s : GFState) :
    (GoFile.getPackages env s).2 = (GoFile.initPackages env s).2 := by
  rcases hIP : GoFile.initPackages env s with ⟨e, s'⟩
  simp only [GoFile.getPackages, hIP]

/-- `GetPackages` returns the post-state's `pkgs` field and sticky error. -/
theorem gp_result_char (env : GFEnv) (s : GFState) :
    (GoFile.getPackages env s).1 =
      (((GoFile.initPackages env s).2).lists.pkgs, ((GoFile.initPackages env s).2).pkgErr) := by
  rcases hIP : GoFile.initPackages env s with ⟨e, s'⟩
  have herr := ip_err_eq env s
  rw [hIP] at herr
  have herr' : e = s'.pkgErr := herr
  simp only [GoFile.getPackages, hIP]
  rw [herr']

/-- A fired packages gate makes `GetPackages` a pure read. -/
theorem gp_settled (env : GFEnv) (s : GFState) (h : s.pkgDone = true) :
    GoFile.getPackages env s = ((s.lists.pkgs, s.pkgErr), s) := by
  simp only [GoFile.getPackages, ip_settled env s h]

/-- The state after the first `GetPackages` call has a fired gate. -/
theorem gpStates_pkgDone (env : GFEnv) : (gpStates env 1).pkgDone = true := by
  show ((GoFile.getPackages env freshGF).2).pkgDone = true
  rw [gp_state_eq]
  exact ip_pkgDone env freshGF

/-- Every later `GetPackages` call leaves the state of the first call. -/
theorem gpStates_eventually (env : GFEnv) (n : Nat) :
    gpStates env (n + 1) = gpStates env 1 := by
  induction n with
  | zero => rfl
  | succ m ih =>
    show (GoFile.getPackages env (gpStates env (m + 1))).2 = gpStates env 1
    rw [ih, gp_settled env _ (gpStates_pkgDone env)]

/-- Every `GetPackages` call returns the settled state's list and error. -/
theorem gpResult_char (env : GFEnv) (n : Nat) :
    gpResult env n = ((gpStates env 1).lists.pkgs, (gpStates env 1).pkgErr) := by
  cases n with
  | zero =>
    show (GoFile.getPackages env freshGF).1 = _
    rw [gp_result_char]
    have hst : (GoFile.initPackages env freshGF).2 = gpStates env 1 :=
      (gp_state_eq env freshGF).symm
    rw [hst]
  | succ m =>
    show (GoFile.getPackages env (gpStates env (m + 1))).1 = _
    rw [gpStates_eventually env m, gp_settled env _ (gpStates_pkgDone env)]

/-- `Moduledata` leaves exactly the `initModuleData` post-state. -/
theorem md_state_eq (env : GFEnv) (s : GFState) :
    (GoFile.moduledataOp env s).2 = (GoFile.initModuleData env s).2 := by
  rcases hMD : GoFile.initModuleData env s with ⟨oe, s'⟩
  cases oe <;> simp only [GoFile.moduledataOp, hMD]

/-- A fired moduledata gate makes `Moduledata` a pure read. -/
theorem md_settled (env : GFEnv) (s : GFState) (h : s.mdDone = true) :
    GoFile.moduledataOp env s =
      ((match s.mdErr with | some e => Except.error e | none => Except.ok s.md), s) := by
  cases hE : s.mdErr with
  | some e => simp only [GoFile.moduledataOp, initMD_settled env s h, hE]
  | none => simp only [GoFile.moduledataOp, initMD_settled env s h, hE]

/-- The result `Moduledata` reports is determined by its post-state. -/
theorem md_result_char (env : GFEnv) (s : GFState) :
    (GoFile.moduledataOp env s).1 =
      (match ((GoFile.moduledataOp env s).2).mdErr with
        | some e => Except.error e
        | none => Except.ok ((GoFile.moduledataOp env s).2).md) := by
  rcases hMD : GoFile.initModuleData env s with ⟨oe, s'⟩
  have herr := initMD_err_eq env s
  rw [hMD] at herr
  cases oe with
  | some e => simp only [GoFile.moduledataOp, hMD]; rw [← herr]
  | none => simp only [GoFile.moduledataOp, hMD]; rw [← herr]

/-- The state after the first `Moduledata` call has a fired gate. -/
theorem mdStates_mdDone (env : GFEnv) : (mdStates env 1).mdDone = true := by
  show ((GoFile.moduledataOp env freshGF).2).mdDone = true
  rw [md_state_eq]
  exact initMD_mdDone env freshGF

/-- Every later `Moduledata` call leaves the state of the first call. -/
theorem mdStates_eventually (env : GFEnv) (n : Nat) :
    mdStates env (n + 1) = mdStates env 1 := by
  induction n with
  | zero => rfl
  | succ m ih =>
    show (GoFile.moduledataOp env (mdStates env (m + 1))).2 = mdStates env 1
    rw [ih, md_settled env _ (mdStates_mdDone env)]

/-- Every `Moduledata` call returns the settled state's sticky result. -/
theorem mdResult_char (env : GFEnv) (n : Nat) :
    mdResult env n =
      (match (mdStates env 1).mdErr with
        | some e => Except.error e
        | none => Except.ok (mdStates env 1).md) := by
  cases n with
  | zero =>
    have hchar := md_result_char env freshGF
    have hst : (GoFile.moduledataOp env freshGF).2 = mdStates env 1 := rfl
    rw [hst] at hchar
    exact hchar
  | succ m =>
    show (GoFile.moduledataOp env (mdStates env (m + 1))).1 = _
    rw [mdStates_eventually env m, md_settled env _ (mdStates_mdDone env)]

/-- Every later `PCLNTab` call leaves the state of the first call. -/
theorem ptStates_eventually (env : GFEnv) (n : Nat) :
    ptStates env (n + 1) = ptStates env 1 := by
  induction n with
  | zero => rfl
  | succ m ih =>
    show (GoFile.pclnTabOp env (ptStates env (m + 1))).2 = ptStates env 1
    rw [ih]
    have hpost := pt_post env freshGF
    exact pt_stable env (ptStates env 1) hpost.1 hpost.2

/-- Every `PCLNTab` call returns the settled state's sticky result, as a
table built from the cached text address and data. -/
theorem ptResult_char (env : GFEnv) (n : Nat) :
    ptResult env n =
      (match (ptStates env 1).mdErr with
        | some e => Except.error e
        | none =>
          match (ptStates env 1).pclnRes with
          | .error e => .error e
          | .ok p => .ok ⟨(ptStates env 1).md.textAddr, p.2⟩) := by
  cases n with
  | zero =>
    show (GoFile.pclnTabOp env freshGF).1 = _
    have hchar := pt_result_char env freshGF
    have hst : (GoFile.pclnTabOp env freshGF).2 = ptStates env 1 := rfl
    rw [hst] at hchar
    rw [hchar]
    cases hE : (ptStates env 1).mdErr with
    | some e => rfl
    | none =>
      cases hR : (ptStates env 1).pclnRes with
      | error e => rfl
      | ok p => obtain ⟨a, d⟩ := p; rfl
  | succ m =>
    show (GoFile.pclnTabOp env (ptStates env (m + 1))).1 = _
    rw [ptStates_eventually env m]
    have hpost := pt_post env freshGF
    have hstab : (GoFile.pclnTabOp env (ptStates env 1)).2 = ptStates env 1 :=
      pt_stable env (ptStates env 1) hpost.1 hpost.2
    have hchar := pt_result_char env (ptStates env 1)
    rw [hstab] at hchar
    rw [hchar]
    cases hE : (ptStates env 1).mdErr with
    | some e => rfl
    | none =>
      cases hR : (ptStates env 1).pclnRes with
      | error e => rfl
      | ok p => obtain ⟨a, d⟩ := p; rfl

/-- A one-shot gate driven any positive number of times fires exactly once
and memoizes the computation. -/
theorem onceIter_one {α : Type} (c d : α) (n : Nat) :
    onceIter c (n + 1) ⟨false, d, 0⟩ = ⟨true, c, 1⟩ := by
  induction n with
  | zero => rfl
  | succ m ih =>
    show (onceDo c (onceIter c (m + 1) ⟨false, d, 0⟩)).2 = _
    rw [ih]
    rfl

/-- C2: every expensive derivation of a `GoFile` runs behind a one-shot gate.
Calling `GetPackages` `n+1` times leaves the state of the first call, returns
the same `(pkgs, error)` value — the `pkgs` field of the settled state, hence
referentially identical lists — performs the enumeration at most once (and
exactly once when the first call succeeded), and runs moduledata extraction
and the PCLNTAB search at most once.  `Moduledata` runs its extraction
exactly once over any number of calls with a sticky result, and `PCLNTab`
likewise performs the handler's search at most once (exactly once whenever it
returns a table).  The PE symbol-table normalization behind its own gate runs
exactly once however often it is driven. -/
theorem oneShot_gates (env : GFEnv) (n : Nat) :
    gpStates env (n + 1) = gpStates env 1 ∧
    gpResult env n = gpResult env 0 ∧
    gpResult env n = ((gpStates env 1).lists.pkgs, (gpStates env 1).pkgErr) ∧
    (gpStates env (n + 1)).enumCount ≤ 1 ∧
    ((gpResult env 0).2 = none → (gpStates env (n + 1)).enumCount = 1) ∧
    (gpStates env (n + 1)).mdCount ≤ 1 ∧
    (gpStates env (n + 1)).searchCount ≤ 1 ∧
    mdStates env (n + 1) = mdStates env 1 ∧
    mdResult env n = mdResult env 0 ∧
    (mdStates env (n + 1)).mdCount = 1 ∧
    ptStates env (n + 1) = ptStates env 1 ∧
    ptResult env n = ptResult env 0 ∧
    (ptStates env (n + 1)).searchCount ≤ 1 ∧
    (∀ t, ptResult env 0 = .ok t → (ptStates env (n + 1)).searchCount = 1) ∧
    (∀ ib secs syms d n',
      onceIter (initSymTabBody ib secs syms) (n' + 1) ⟨false, d, 0⟩ =
        ⟨true, initSymTabBody ib secs syms, 1⟩ ∧
      (initSymTab ib secs syms ⟨true, initSymTabBody ib secs syms, 1⟩).1 =
        initSymTabBody ib secs syms) := by
  have hgs : gpStates env 1 = (GoFile.initPackages env freshGF).2 :=
    gp_state_eq env freshGF
  have hms : mdStates env 1 = (GoFile.initModuleData env freshGF).2 :=
    md_state_eq env freshGF
  refine ⟨gpStates_eventually env n,
    (gpResult_char env n).trans (gpResult_char env 0).symm,
    gpResult_char env n, ?_, fun hr => ?_, ?_, ?_,
    mdStates_eventually env n,
    (mdResult_char env n).trans (mdResult_char env 0).symm, ?_,
    ptStates_eventually env n,
    (ptResult_char env n).trans (ptResult_char env 0).symm, ?_,
    fun t hr => ?_, fun ib secs syms d n' => ⟨onceIter_one _ _ n', rfl⟩⟩
  · rw [gpStates_eventually env n, hgs]
    exact ip_enumCount_le env freshGF
  · have hpe : (gpStates env 1).pkgErr = none := by
      rw [gpResult_char env 0] at hr
      exact hr
    have hip : (GoFile.initPackages env freshGF).1 = none := by
      rw [ip_err_eq env freshGF, ← hgs]
      exact hpe
    rw [gpStates_eventually env n, hgs]
    exact ip_enumCount_of_none env freshGF rfl hip
  · rw [gpStates_eventually env n, hgs]
    exact ip_mdCount_le env freshGF
  · rw [gpStates_eventually env n, hgs]
    exact ip_searchCount_le env freshGF
  · rw [mdStates_eventually env n, hms]
    exact initMD_mdCount_fresh env freshGF rfl
  · rw [ptStates_eventually env n]
    exact pt_searchCount_le env freshGF
  · rw [ptStates_eventually env n]
    show ((GoFile.pclnTabOp env freshGF).2).searchCount = 1
    cases hE : env.extractMD with
    | error e =>
      exfalso
      have hres : ptResult env 0 = .error e := by
        show (GoFile.pclnTabOp env freshGF).1 = _
        simp [GoFile.pclnTabOp, GoFile.initModuleData, freshGF, hE]
      rw [hres] at hr
      cases hr
    | ok m =>
      cases hS : env.pclnSearch with
      | error e =>
        simp [GoFile.pclnTabOp, GoFile.initModuleData, GoFile.getPCLNTABData, freshGF,
          hE, hS]
      | ok p =>
        obtain ⟨a, d⟩ := p
        simp [GoFile.pclnTabOp, GoFile.initModuleData, GoFile.getPCLNTABData, freshGF,
          hE, hS]

/-- Witness for the C2 theorem: three calls on a healthy environment. -/
theorem oneShot_gates_witness :
    gpResult witEnv 2 = gpResult witEnv 0 ∧
    (gpStates witEnv 3).enumCount = 1 ∧
    (mdStates witEnv 3).mdCount = 1 ∧
    (ptStates witEnv 3).searchCount = 1 ∧
    onceIter (initSymTabBody 0 cexSymSections cexSymbols) 3 ⟨false, Except.error [], 0⟩ =
      ⟨true, initSymTabBody 0 cexSymSections cexSymbols, 1⟩ := by
  obtain ⟨c1, c2, c3, c4, c5, c6, c7, c8, c9, c10, c11, c12, c13, c14, c15⟩ :=
    oneShot_gates witEnv 2
  exact ⟨c2, c5 rfl, c10, c14 ⟨4096, [1, 2, 3]⟩ rfl,
    (c15 0 cexSymSections cexSymbols (Except.error []) 2).1⟩

/-- C10: `SourceInfo` and `GetSourceFiles` read the `pclntab` field cached by
`initPackages`.  On a fresh handle the field is nil and both operations
dereference it (`GetSourceFiles` as soon as the package has a function);
after a successful `initPackages` the field holds a table and both operations
return plain values. -/
theorem sourceInfo_requires_packages (env : GFEnv) (fn : GoFunction) (pkg : Package)
    (hpkg : pkg.functions ≠ []) (s' : GFState)
    (hsucc : GoFile.initPackages env freshGF = (none, s')) :
    GoFile.sourceInfo env freshGF fn = .panicked "nil pointer dereference".data ∧
    GoFile.getSourceFiles env freshGF pkg = .panicked "nil pointer dereference".data ∧
    (∃ t, s'.pclntab = some t) ∧
    (∃ v, GoFile.sourceInfo env s' fn = .ok v) ∧
    (∃ l, GoFile.getSourceFiles env s' pkg = .ok l) := by
  have hr : (GoFile.initPackages env freshGF).1 = none := by rw [hsucc]
  have htab0 := ip_pclntab_of_none env freshGF rfl hr
  rw [hsucc] at htab0
  obtain ⟨t, ht⟩ := htab0
  refine ⟨rfl, ?_, ⟨t, ht⟩, ?_, ?_⟩
  · have hfresh : freshGF.pclntab = none := rfl
    simp only [GoFile.getSourceFiles, hfresh]
    rw [if_neg (fun hc => hpkg hc.1)]
  · unfold GoFile.sourceInfo
    rw [ht]
    exact ⟨_, rfl⟩
  · unfold GoFile.getSourceFiles
    rw [ht]
    exact ⟨_, rfl⟩

/-- Witness for the C10 theorem: a healthy environment and a one-function
package. -/
theorem sourceInfo_requires_packages_witness :
    GoFile.sourceInfo witEnv freshGF witFn = .panicked "nil pointer dereference".data ∧
    (∃ v, GoFile.sourceInfo witEnv ((GoFile.initPackages witEnv freshGF).2) witFn = .ok v) ∧
    (∃ l, GoFile.getSourceFiles witEnv ((GoFile.initPackages witEnv freshGF).2) witPkg = .ok l) := by
  have h := sourceInfo_requires_packages witEnv witFn witPkg (by decide)
    ((GoFile.initPackages witEnv freshGF).2) rfl
  exact ⟨h.1, h.2.2.2.1, h.2.2.2.2⟩

end Gore
